import Mathlib

/-!
Array list and doubly linked list: a shallow embedding

The development embeds `01 - ArrayList/ArrayList.c` and
`02 - Linked Lists, Queues, and Stacks/LinkedList.c`.

Modelling conventions.

* A pointer is an `Option Nat`: `none` is `NULL`, `some a` is the address of a
  heap block.  Node blocks and value blocks live in two address spaces of a
  `Store`; a slot holding `none` is a block that has been freed.  The allocator
  always hands out a fresh address, so a dangling pointer stays dangling.
* Every operation returns an `Option`: `none` means the C execution has
  undefined behaviour (a read or write through a pointer to a block that is
  not live, a second `free`, an out-of-bounds access) or does not return.
* The outcome of each `malloc`/`calloc`/`realloc` is an argument of the
  operation that performs it.
* The C type `int` is modelled by `Int`.  The one `int` operation of the
  sources whose result can leave the 32-bit range while its operands are in
  it, the product `arraySize * 2` of `arrayListInsert`, is compared with
  `INT_MAX` (see `reallocDoubled`); the counters only move in steps of one.
* A `LinkedList *` or `ArrayList *` handle is an `Option` of the structure it
  points to; `none` is the `NULL` handle.
-/

/-! ## Memory -/

/-- A pointer: `none` is `NULL`. -/
abbrev Ptr := Option Nat

/-- The bytes of a stored value. -/
abbrev Bytes := List (Fin 256)

/-- The `struct ListNode` of `LinkedList.h`. -/
structure ListNode where
  next : Ptr
  prev : Ptr
  value : Ptr
deriving DecidableEq

/-- The `struct LinkedList` of `LinkedList.h`. -/
structure LinkedList where
  compare : Bytes → Bytes → Int
  head : Ptr
  tail : Ptr
  size : Int

/-- The heap: node blocks and value blocks, indexed by address.  A slot that
holds `none` has been freed. -/
structure Store where
  nodes : List (Option ListNode)
  vals : List (Option Bytes)
deriving DecidableEq

/-- The live node at address `a`, if there is one. -/
def Store.node (m : Store) (a : Nat) : Option ListNode :=
  (m.nodes[a]?).getD none

/-- The live value block at address `p`, if there is one. -/
def Store.val (m : Store) (p : Nat) : Option Bytes :=
  (m.vals[p]?).getD none

/-- Overwrite the node block at address `a`. -/
def Store.writeNode (m : Store) (a : Nat) (n : ListNode) : Store :=
  { m with nodes := m.nodes.set a (some n) }

/-- The assignment `a->next = p`; undefined when `a` is not a live node. -/
def Store.setNext (m : Store) (a : Nat) (p : Ptr) : Option Store :=
  (m.node a).map fun n => m.writeNode a { n with next := p }

/-- The assignment `a->prev = p`; undefined when `a` is not a live node. -/
def Store.setPrev (m : Store) (a : Nat) (p : Ptr) : Option Store :=
  (m.node a).map fun n => m.writeNode a { n with prev := p }

/-- The statement `if (a != NULL) { a->next = p; }`. -/
def Store.setNextIf (m : Store) (a : Ptr) (p : Ptr) : Option Store :=
  match a with
  | some a => m.setNext a p
  | none => some m

/-- The statement `if (a != NULL) { a->prev = p; }`. -/
def Store.setPrevIf (m : Store) (a : Ptr) (p : Ptr) : Option Store :=
  match a with
  | some a => m.setPrev a p
  | none => some m

/-- The call `free(a)` on a node pointer that is not `NULL`; undefined when the
block is not live. -/
def Store.freeNode (m : Store) (a : Nat) : Option Store :=
  (m.node a).map fun _ => { m with nodes := m.nodes.set a none }

/-- The call `free(p)` on a value pointer; `free(NULL)` does nothing, freeing a
block that is not live is undefined. -/
def Store.freeVal (m : Store) : Ptr → Option Store
  | none => some m
  | some p => (m.val p).map fun _ => { m with vals := m.vals.set p none }

/-- What an operation on a list hands back: its return value, the heap, and
the contents of the list structure behind the handle. -/
structure Outcome (ρ : Type) where
  ret : ρ
  mem : Store
  list : Option LinkedList

/-! ## LinkedList.c -/

/-- The function `listNodeCreate`: `nodeOk` and `valueOk` say whether the
`calloc` of the node and the `malloc` of the value storage succeed.  `value`
is the caller's object; `memcpy` reads its first `size` bytes. -/
def listNodeCreate (m : Store) (value : Bytes) (size : Int) (nodeOk valueOk : Bool) :
    Option (Store × Ptr) :=
  if nodeOk = false then some (m, none)
  else if valueOk = false then some ({ m with nodes := m.nodes ++ [none] }, none)
  else if size < 0 ∨ (value.length : Int) < size then none
  else
    some ({ nodes := m.nodes ++ [some ⟨none, none, some m.vals.length⟩],
            vals := m.vals ++ [some (value.take size.toNat)] },
          some m.nodes.length)

/-- The function `listNodeDestroy`. -/
def listNodeDestroy (m : Store) (node : Nat) : Option Store := do
  let n ← m.node node
  let m ← m.freeVal n.value
  m.freeNode node

/-- The function `linkedListCreate`: `compare = none` is the `NULL` comparator,
`allocOk` says whether `calloc` succeeds. -/
def linkedListCreate (compare : Option (Bytes → Bytes → Int)) (allocOk : Bool) :
    Option LinkedList :=
  match compare with
  | none => none
  | some cmp => if allocOk = false then none else some ⟨cmp, none, none, 0⟩

/-- The function `linkedListInsertFront`.  The source line
`node->next = linkedList->head` lacks its terminating semicolon; it is read as
the assignment statement it spells. -/
def linkedListInsertFront (m : Store) (linkedList : Option LinkedList) (value : Bytes)
    (size : Int) (nodeOk valueOk : Bool) : Option (Outcome Int) :=
  match linkedList with
  | none => some ⟨-1, m, none⟩
  | some l => do
    let (m, node) ← listNodeCreate m value size nodeOk valueOk
    match node with
    | none => pure ⟨-1, m, some l⟩
    | some node =>
      let m ← m.setPrevIf l.head (some node)
      let m ← m.setNext node l.head
      let l : LinkedList := { l with head := some node }
      let l := if l.tail = none then { l with tail := some node } else l
      pure ⟨0, m, some { l with size := l.size + 1 }⟩

/-- The function `linkedListInsertBack`. -/
def linkedListInsertBack (m : Store) (linkedList : Option LinkedList) (value : Bytes)
    (size : Int) (nodeOk valueOk : Bool) : Option (Outcome Int) :=
  match linkedList with
  | none => some ⟨-1, m, none⟩
  | some l => do
    let (m, node) ← listNodeCreate m value size nodeOk valueOk
    match node with
    | none => pure ⟨-1, m, some l⟩
    | some node =>
      let m ← m.setNextIf l.tail (some node)
      let m ← m.setPrev node l.tail
      let l : LinkedList := { l with tail := some node }
      let l := if l.head = none then { l with head := some node } else l
      pure ⟨0, m, some { l with size := l.size + 1 }⟩

/-- The loop of `linkedListSearch`, started at `cur`.  The comparator reads
the value block of every node it is given.  `fuel` bounds the number of
iterations; the result is `none` when it runs out. -/
def searchFrom (m : Store) (compare : Bytes → Bytes → Int) (value : Bytes) :
    Nat → Ptr → Option Ptr
  | _, none => some none
  | 0, some _ => none
  | fuel + 1, some cur => do
    let n ← m.node cur
    let vp ← n.value
    let v ← m.val vp
    if compare v value = 0 then pure (some cur)
    else searchFrom m compare value fuel n.next

/-- The function `linkedListSearch`.  A walk that does not revisit a node sees
at most as many nodes as the heap has node blocks, which is the fuel given. -/
def linkedListSearch (m : Store) (linkedList : Option LinkedList) (value : Bytes) :
    Option Ptr :=
  match linkedList with
  | none => some none
  | some l => searchFrom m l.compare value m.nodes.length l.head

/-- The function `linkedListRemoveValue`. -/
def linkedListRemoveValue (m : Store) (linkedList : Option LinkedList) (value : Bytes) :
    Option (Outcome Int) := do
  let found ← linkedListSearch m linkedList value
  match found, linkedList with
  | none, _ => pure ⟨-1, m, linkedList⟩
  | some _, none => none
  | some found, some l =>
    let n ← m.node found
    let m ← m.setNextIf n.prev n.next
    let n ← m.node found
    let m ← m.setPrevIf n.next n.prev
    let n ← m.node found
    let l := if some found = l.head then { l with head := n.next } else l
    let l := if some found = l.tail then { l with tail := n.prev } else l
    let m ← listNodeDestroy m found
    pure ⟨0, m, some { l with size := l.size - 1 }⟩

/-- The function `linkedListPeekFront`. -/
def linkedListPeekFront (m : Store) (linkedList : Option LinkedList) : Option Ptr :=
  match linkedList with
  | none => some none
  | some l =>
    match l.head with
    | none => some none
    | some h => (m.node h).map fun n => n.value

/-- The function `linkedListPeekBack`. -/
def linkedListPeekBack (m : Store) (linkedList : Option LinkedList) : Option Ptr :=
  match linkedList with
  | none => some none
  | some l =>
    match l.tail with
    | none => some none
    | some t => (m.node t).map fun n => n.value

/-- The function `linkedListPopFront`. -/
def linkedListPopFront (m : Store) (linkedList : Option LinkedList) :
    Option (Outcome Ptr) :=
  match linkedList with
  | none => some ⟨none, m, none⟩
  | some l =>
    match l.head with
    | none => some ⟨none, m, some l⟩
    | some node => do
      let n ← m.node node
      let front := n.value
      let l : LinkedList := { l with head := n.next }
      let l := if l.size = 1 then { l with tail := none } else l
      let m ← m.freeNode node
      pure ⟨front, m, some { l with size := l.size - 1 }⟩

/-- The function `linkedListPopBack`.  The guard tests `head`, the node taken
is `tail`. -/
def linkedListPopBack (m : Store) (linkedList : Option LinkedList) :
    Option (Outcome Ptr) :=
  match linkedList with
  | none => some ⟨none, m, none⟩
  | some l =>
    match l.head with
    | none => some ⟨none, m, some l⟩
    | some _ => do
      let node ← l.tail
      let n ← m.node node
      let back := n.value
      let l : LinkedList := { l with tail := n.prev }
      let l := if l.size = 1 then { l with head := none } else l
      let m ← m.freeNode node
      pure ⟨back, m, some { l with size := l.size - 1 }⟩

/-! ## Observing a list -/

/-- The addresses met by starting at `cur` and following `next` until `NULL`.
The result is `none` when the walk reads a node that is not live, or does not
reach `NULL` within `fuel` steps. -/
def walkNext (m : Store) : Nat → Ptr → Option (List Nat)
  | _, none => some []
  | 0, some _ => none
  | fuel + 1, some a => do
    let n ← m.node a
    let rest ← walkNext m fuel n.next
    pure (a :: rest)

/-- The bytes stored by the node at address `a`. -/
def nodeValue (m : Store) (a : Nat) : Option Bytes := do
  let n ← m.node a
  let vp ← n.value
  m.val vp

/-- The nodes reached from `head` by following `next`, front to back. -/
def reachableNodes (m : Store) (l : LinkedList) : Option (List Nat) :=
  walkNext m m.nodes.length l.head

/-- The bytes stored by each of the nodes `addrs`, in order. -/
def nodeValues (m : Store) : List Nat → Option (List Bytes)
  | [] => some []
  | a :: rest => do
    let v ← nodeValue m a
    let vs ← nodeValues m rest
    pure (v :: vs)

/-- The front-to-back sequence of values of a list. -/
def frontToBack (m : Store) (l : LinkedList) : Option (List Bytes) := do
  let addrs ← reachableNodes m l
  nodeValues m addrs

/-- The bytes behind a value pointer returned by an operation. -/
def deref (m : Store) (p : Ptr) : Option Bytes :=
  p.bind m.val

/-- A call of one of the five mutating operations of the list. -/
inductive ListOp where
  | insertFront (value : Bytes) (size : Int) (nodeOk valueOk : Bool)
  | insertBack (value : Bytes) (size : Int) (nodeOk valueOk : Bool)
  | removeValue (value : Bytes)
  | popFront
  | popBack

/-- Run one operation on a live list and keep the heap and the list. -/
def ListOp.run (op : ListOp) (s : Store × LinkedList) : Option (Store × LinkedList) :=
  match op with
  | .insertFront v sz a b =>
    (linkedListInsertFront s.1 (some s.2) v sz a b).bind fun o => o.list.map fun l => (o.mem, l)
  | .insertBack v sz a b =>
    (linkedListInsertBack s.1 (some s.2) v sz a b).bind fun o => o.list.map fun l => (o.mem, l)
  | .removeValue v =>
    (linkedListRemoveValue s.1 (some s.2) v).bind fun o => o.list.map fun l => (o.mem, l)
  | .popFront =>
    (linkedListPopFront s.1 (some s.2)).bind fun o => o.list.map fun l => (o.mem, l)
  | .popBack =>
    (linkedListPopBack s.1 (some s.2)).bind fun o => o.list.map fun l => (o.mem, l)

/-- Run a sequence of operations, first to last. -/
def runOps : List ListOp → Store × LinkedList → Option (Store × LinkedList)
  | [], s => some s
  | op :: ops, s => (op.run s).bind (runOps ops)

/-- A comparator for the examples: 0 on equal byte strings, 1 otherwise. -/
def bytesCompare (a b : Bytes) : Int := if a = b then 0 else 1

/-- The list `linkedListCreate` returns for `bytesCompare`, in an empty heap. -/
def freshList : Store × LinkedList := (⟨[], []⟩, ⟨bytesCompare, none, none, 0⟩)

/-- The addresses met by starting at `cur` and following `prev` until `NULL`.
The result is `none` when the walk reads a node that is not live, or does not
reach `NULL` within `fuel` steps. -/
def walkPrev (m : Store) : Nat → Ptr → Option (List Nat)
  | _, none => some []
  | 0, some _ => none
  | fuel + 1, some a => do
    let n ← m.node a
    let rest ← walkPrev m fuel n.prev
    pure (a :: rest)

/-- The nodes reached from `tail` by following `prev`, back to front. -/
def reachableNodesBackward (m : Store) (l : LinkedList) : Option (List Nat) :=
  walkPrev m m.nodes.length l.tail

/-- A call of one of the operations of the list other than the two pops. -/
inductive NoPopOp where
  | insertFront (value : Bytes) (size : Int) (nodeOk valueOk : Bool)
  | insertBack (value : Bytes) (size : Int) (nodeOk valueOk : Bool)
  | search (value : Bytes)
  | peekFront
  | peekBack
  | removeValue (value : Bytes)

/-- Run one such operation on a live list and keep the heap and the list; the
three reading operations leave both as they are. -/
def NoPopOp.run (op : NoPopOp) (s : Store × LinkedList) : Option (Store × LinkedList) :=
  match op with
  | .insertFront v sz a b =>
    (linkedListInsertFront s.1 (some s.2) v sz a b).bind fun o => o.list.map fun l => (o.mem, l)
  | .insertBack v sz a b =>
    (linkedListInsertBack s.1 (some s.2) v sz a b).bind fun o => o.list.map fun l => (o.mem, l)
  | .search v => (linkedListSearch s.1 (some s.2) v).map fun _ => s
  | .peekFront => (linkedListPeekFront s.1 (some s.2)).map fun _ => s
  | .peekBack => (linkedListPeekBack s.1 (some s.2)).map fun _ => s
  | .removeValue v =>
    (linkedListRemoveValue s.1 (some s.2) v).bind fun o => o.list.map fun l => (o.mem, l)

/-- Run a sequence of such operations, first to last. -/
def runNoPopOps : List NoPopOp → Store × LinkedList → Option (Store × LinkedList)
  | [], s => some s
  | op :: ops, s => (op.run s).bind (runNoPopOps ops)

/-- The insertions of the sequence copy no more bytes than the caller's value
has: `0 ≤ size ≤` the length of `value`. -/
def NoPopOp.sized : NoPopOp → Prop
  | .insertFront v sz _ _ => 0 ≤ sz ∧ sz ≤ v.length
  | .insertBack v sz _ _ => 0 ≤ sz ∧ sz ≤ v.length
  | _ => True

/-! ## Well-formed lists -/

/-- One element of a list as the heap holds it: the address of its node, the
address of its value block, and the bytes stored there. -/
structure Cell where
  addr : Nat
  vptr : Nat
  bytes : Bytes
deriving DecidableEq

/-- A doubly linked segment: `Seg m prev cur g last nxt` says that the cells of
`g` are live nodes of `m` linked in this order, that `cur` points to the first
of them, whose `prev` is `prev`, that `last` points to the last of them, whose
`next` is `nxt`, and that every value block is live and holds the cell's bytes.
For an empty `g`, `cur = nxt` and `last = prev`. -/
def Seg (m : Store) : Ptr → Ptr → List Cell → Ptr → Ptr → Prop
  | prev, cur, [], last, nxt => cur = nxt ∧ last = prev
  | prev, cur, c :: rest, last, nxt =>
    cur = some c.addr ∧
    ∃ n, m.node c.addr = some ⟨n, prev, some c.vptr⟩ ∧
      m.val c.vptr = some c.bytes ∧ Seg m (some c.addr) n rest last nxt

/-- A well-formed list holding the cells `g` front to back: `head` and `tail`
are the ends of a doubly linked chain whose outer links are `NULL`
(`head->prev == NULL`, `tail->next == NULL`, neighbours point at each other,
`head == tail == NULL` for the empty chain), no node and no value block occurs
twice, and `size` is the number of nodes. -/
structure WellFormed (m : Store) (l : LinkedList) (g : List Cell) : Prop where
  chain : Seg m none l.head g l.tail none
  nodup : (g.map Cell.addr).Nodup
  vnodup : (g.map Cell.vptr).Nodup
  size : l.size = g.length

/-- The cell a successful insertion of the first `size` bytes of `value`
creates in the heap `m`. -/
def newCell (m : Store) (value : Bytes) (size : Int) : Cell :=
  ⟨m.nodes.length, m.vals.length, value.take size.toNat⟩

/-- The heap after a successful `listNodeCreate`. -/
def allocated (m : Store) (value : Bytes) (size : Int) : Store :=
  { nodes := m.nodes ++ [some ⟨none, none, some m.vals.length⟩],
    vals := m.vals ++ [some (value.take size.toNat)] }

/-! ## ArrayList.c -/

/-- The `struct ArrayList` of `ArrayList.h`: `array` is the block the pointer
`array` points to, one entry per `int` slot. -/
structure ArrayList where
  array : List Int
  arraySize : Int
  listSize : Int
deriving DecidableEq

/-- The `struct ALIter` of `ArrayList.h`.  The back-reference `arrayList` is
passed to the iterator functions as an argument. -/
structure ALIter where
  nextIndex : Int
deriving DecidableEq

/-- The constant `MIN_ARRAY_SIZE`. -/
def MIN_ARRAY_SIZE : Int := 4

/-- A block of `n` slots whose contents are not initialised: they are read off
`junk`, and are 0 where `junk` is too short. -/
def uninitialised (n : Nat) (junk : List Int) : List Int :=
  (junk ++ List.replicate n 0).take n

/-- The call `realloc(buf, n * sizeof(int))`: `check = none` is the `NULL`
result, `check = some junk` a success, which keeps the old slots and takes the
contents of the new ones from `junk`. -/
def realloc (buf : List Int) (n : Int) (check : Option (List Int)) : Option (List Int) :=
  check.map fun junk => (buf ++ uninitialised n.toNat junk).take n.toNat

/-- The largest value of the 32-bit C type `int`. -/
def INT_MAX : Int := 2147483647

/-- The call `realloc(arrayList->array, newArraySize * sizeof(int))` of
`arrayListInsert`, where `newArraySize` is the `int` product `arraySize * 2`.
When the exact product is above `INT_MAX` (`arraySize ≥ 2^30`) the `int`
product overflows: on the two's complement machines the code runs on it is
negative, the byte count it converts to lies beyond the address space, and
`realloc` returns `NULL` whatever memory is free.  Otherwise the call is
`realloc array (arraySize * 2) check`. -/
def reallocDoubled (array : List Int) (arraySize : Int) (check : Option (List Int)) :
    Option (List Int) :=
  if INT_MAX < arraySize * 2 then none else realloc array (arraySize * 2) check

/-- The function `arrayListCreate`: `structOk` says whether the `malloc` of the
structure succeeds, `buffer` is the outcome of the `malloc` of the array. -/
def arrayListCreate (structOk : Bool) (buffer : Option (List Int)) : Option ArrayList :=
  if structOk = false then none
  else
    match buffer with
    | none => none
    | some junk => some ⟨uninitialised MIN_ARRAY_SIZE.toNat junk, MIN_ARRAY_SIZE, 0⟩

/-- The function `arrayListInsert`: `check` is what the allocator answers to
the `realloc`, should the call reach it with a size it can be asked for (see
`reallocDoubled`).  The result is the return value and the contents of the
structure behind the handle. -/
def arrayListInsert (arrayList : Option ArrayList) (value : Int)
    (check : Option (List Int)) : Option (Int × Option ArrayList) :=
  match arrayList with
  | none => some (-1, none)
  | some a =>
    if a.listSize = a.arraySize then some (-1, some a)
    else if a.listSize < 0 ∨ (a.array.length : Int) ≤ a.listSize then none
    else
      let a : ArrayList := { a with array := a.array.set a.listSize.toNat value }
      let a : ArrayList := { a with listSize := a.listSize + 1 }
      if a.listSize = a.arraySize then
        let newArraySize := a.arraySize * 2
        match reallocDoubled a.array a.arraySize check with
        | none => some (-1, some a)
        | some buf => some (0, some { a with array := buf, arraySize := newArraySize })
      else some (0, some a)

/-- The loop of `arrayListSearch`, about to test `ii < listSize`.  `fuel`
bounds the number of iterations. -/
def arrayListSearchLoop (a : ArrayList) (value : Int) : Nat → Nat → Option Int
  | 0, ii => if (ii : Int) < a.listSize then none else some (-1)
  | fuel + 1, ii =>
    if (ii : Int) < a.listSize then
      match a.array[ii]? with
      | none => none
      | some x => if x = value then some ii else arrayListSearchLoop a value fuel (ii + 1)
    else some (-1)

/-- The function `arrayListSearch`. -/
def arrayListSearch (arrayList : Option ArrayList) (value : Int) : Option Int :=
  match arrayList with
  | none => some (-1)
  | some a => arrayListSearchLoop a value a.listSize.toNat 0

/-- The shifting loop of `arrayListRemove`, about to test `ii < listSize - 1`. -/
def arrayListShiftLoop (listSize : Int) : Nat → Nat → List Int → Option (List Int)
  | 0, ii, array => if (ii : Int) < listSize - 1 then none else some array
  | fuel + 1, ii, array =>
    if (ii : Int) < listSize - 1 then
      match array[ii + 1]? with
      | none => none
      | some x => arrayListShiftLoop listSize fuel (ii + 1) (array.set ii x)
    else some array

/-- The function `arrayListRemove`. -/
def arrayListRemove (arrayList : Option ArrayList) (value : Int) :
    Option (Int × Option ArrayList) := do
  let foundIndex ← arrayListSearch arrayList value
  if foundIndex < 0 then pure (-1, arrayList)
  else
    let a ← arrayList
    let array ← arrayListShiftLoop a.listSize a.listSize.toNat foundIndex.toNat a.array
    pure (0, some { a with array := array, listSize := a.listSize - 1 })

/-- The function `alIterCreate`: `allocOk` says whether `malloc` succeeds.
The result `none` is the `NULL` iterator. -/
def alIterCreate (arrayList : Option ArrayList) (allocOk : Bool) : Option ALIter :=
  match arrayList with
  | none => none
  | some a =>
    if a.listSize = 0 then none
    else if allocOk = false then none
    else some ⟨0⟩

/-- The function `alIterNext`, on an iterator over the array `a`. -/
def alIterNext (a : ArrayList) (alIter : Option ALIter) : Option ALIter :=
  match alIter with
  | none => none
  | some it =>
    let it : ALIter := { it with nextIndex := it.nextIndex + 1 }
    if it.nextIndex = a.listSize then none else some it

/-- The function `alIterValue`, on an iterator over the array `a`; the read is
undefined outside the block. -/
def alIterValue (a : ArrayList) (alIter : ALIter) : Option Int :=
  if alIter.nextIndex < 0 then none else a.array[alIter.nextIndex.toNat]?

/-- The loop of `arrayListPrint`: the values printed, in order. -/
def arrayListPrintLoop (a : ArrayList) : Nat → Option ALIter → Option (List Int)
  | _, none => some []
  | 0, some _ => none
  | fuel + 1, some it => do
    let v ← alIterValue a it
    let rest ← arrayListPrintLoop a fuel (alIterNext a (some it))
    pure (v :: rest)

/-- The function `arrayListPrint`: the return value and the values printed
after the heading. -/
def arrayListPrint (arrayList : Option ArrayList) (allocOk : Bool) :
    Option (Int × List Int) :=
  match arrayList with
  | none => some (-1, [])
  | some a =>
    (arrayListPrintLoop a a.listSize.toNat (alIterCreate (some a) allocOk)).map
      fun out => (0, out)

/-- Driving the iterator as `arrayListPrint` does, `alIterValue` then
`alIterNext` until the iterator is `NULL`: the index read and the value got at
each step, in order. -/
def alIterTrace (a : ArrayList) : Nat → Option ALIter → Option (List (Int × Int))
  | _, none => some []
  | 0, some _ => none
  | fuel + 1, some it => do
    let v ← alIterValue a it
    let rest ← alIterTrace a fuel (alIterNext a (some it))
    pure ((it.nextIndex, v) :: rest)

/-! ## Sequences of array operations -/

/-- A call of `arrayListInsert`, with the outcome of its `realloc`, or of
`arrayListRemove`. -/
inductive ArrayOp where
  | insert (value : Int) (check : Option (List Int))
  | remove (value : Int)

/-- Run one operation on a live array: its return value and the array. -/
def ArrayOp.run (op : ArrayOp) (a : ArrayList) : Option (Int × ArrayList) :=
  match op with
  | .insert v check =>
    (arrayListInsert (some a) v check).bind fun r => r.2.map fun a1 => (r.1, a1)
  | .remove v =>
    (arrayListRemove (some a) v).bind fun r => r.2.map fun a1 => (r.1, a1)

/-- Run a sequence of operations, first to last: the return values, in order,
and the final array. -/
def runArrayOps : List ArrayOp → ArrayList → Option (List Int × ArrayList)
  | [], a => some ([], a)
  | op :: ops, a =>
    (op.run a).bind fun r => (runArrayOps ops r.2).map fun rest => (r.1 :: rest.1, rest.2)

/-- The array `arrayListCreate` returns when the fresh block holds zeros. -/
def freshArray : ArrayList := ⟨[0, 0, 0, 0], 4, 0⟩

/-- The inserts of 1, 2, ..., 7, every reallocation succeeding. -/
def insertOneToSeven : List ArrayOp :=
  [.insert 1 (some []), .insert 2 (some []), .insert 3 (some []), .insert 4 (some []),
   .insert 5 (some []), .insert 6 (some []), .insert 7 (some [])]

/-- The capacity after the first `k` operations of `ops` on the array `a`. -/
def capacityAfter (ops : List ArrayOp) (a : ArrayList) (k : Nat) : Option Int :=
  (runArrayOps (ops.take k) a).map fun r => r.2.arraySize

/-- The reallocation of this call succeeds, if the call performs one: an
insert that fills the array `a` gets a block from its `realloc`. -/
def ArrayOp.growthSucceeds (op : ArrayOp) (a : ArrayList) : Bool :=
  match op with
  | .insert v check =>
    !decide (a.listSize + 1 = a.arraySize) ||
      (reallocDoubled (a.array.set a.listSize.toNat v) a.arraySize check).isSome
  | .remove _ => true

/-- Every reallocation performed while `ops` runs from the array `a`
succeeds. -/
def growthsSucceed : List ArrayOp → ArrayList → Bool
  | [], _ => true
  | op :: ops, a =>
    op.growthSucceeds a &&
      match op.run a with
      | some r => growthsSucceed ops r.2
      | none => true

/-! ## Well-formed arrays -/

/-- An array whose block has `arraySize` slots, of which the first `listSize`
are in use. -/
structure ArrayList.Valid (a : ArrayList) : Prop where
  block : (a.array.length : Int) = a.arraySize
  nonneg : 0 ≤ a.listSize
  bound : a.listSize ≤ a.arraySize

/-- The elements of the array, slots `0` to `listSize - 1`. -/
def ArrayList.contents (a : ArrayList) : List Int :=
  a.array.take a.listSize.toNat

/-! ## Example states -/

/-- The four bytes of a small `int` on a little-endian machine. -/
def intBytes (n : Fin 256) : Bytes := [n, 0, 0, 0]

/-- The calls `insertBack(5)`, `insertBack(20)` with every allocation
succeeding. -/
def pushFiveTwenty : List ListOp :=
  [.insertBack (intBytes 5) 4 true true, .insertBack (intBytes 20) 4 true true]

/-- The heap and list after `pushFiveTwenty` on a fresh list. -/
def fiveTwenty : Store × LinkedList :=
  (⟨[some ⟨some 1, none, some 0⟩, some ⟨none, some 0, some 1⟩],
    [some (intBytes 5), some (intBytes 20)]⟩,
   ⟨bytesCompare, some 0, some 1, 2⟩)

/-- The cells of `fiveTwenty`. -/
def fiveTwentyCells : List Cell := [⟨0, 0, intBytes 5⟩, ⟨1, 1, intBytes 20⟩]

/-- The heap and list after `insertBack(10)`, `insertBack(20)`,
`insertFront(5)` on a fresh list. -/
def fiveTenTwenty : Store × LinkedList :=
  (⟨[some ⟨some 1, some 2, some 0⟩, some ⟨none, some 0, some 1⟩,
      some ⟨some 0, none, some 2⟩],
    [some (intBytes 10), some (intBytes 20), some (intBytes 5)]⟩,
   ⟨bytesCompare, some 2, some 1, 3⟩)

/-- The cells of `fiveTenTwenty`. -/
def fiveTenTwentyCells : List Cell :=
  [⟨2, 2, intBytes 5⟩, ⟨0, 0, intBytes 10⟩, ⟨1, 1, intBytes 20⟩]

/-! ## Lemmas on the heap -/

theorem Store.node_lt {m : Store} {a : Nat} {n : ListNode} (h : m.node a = some n) :
    a < m.nodes.length := by
  unfold Store.node at h
  by_contra hlt
  rw [List.getElem?_eq_none (by omega)] at h
  simp at h

theorem Store.val_lt {m : Store} {p : Nat} {v : Bytes} (h : m.val p = some v) :
    p < m.vals.length := by
  unfold Store.val at h
  by_contra hlt
  rw [List.getElem?_eq_none (by omega)] at h
  simp at h

theorem Store.node_writeNode {m : Store} {a : Nat} (n : ListNode) (b : Nat)
    (ha : a < m.nodes.length) :
    (m.writeNode a n).node b = if b = a then some n else m.node b := by
  unfold Store.writeNode Store.node
  by_cases hb : b = a
  · subst hb; simp [ha]
  · simp [hb, List.getElem?_set_ne (Ne.symm hb)]

theorem Store.setNext_eq {m m1 : Store} {a : Nat} {p : Ptr} (h : m.setNext a p = some m1) :
    ∃ n, m.node a = some n ∧ m1 = m.writeNode a { n with next := p } := by
  unfold Store.setNext at h
  cases hn : m.node a with
  | none => simp [hn] at h
  | some n => exact ⟨n, rfl, by simpa [hn] using h.symm⟩

theorem Store.setPrev_eq {m m1 : Store} {a : Nat} {p : Ptr} (h : m.setPrev a p = some m1) :
    ∃ n, m.node a = some n ∧ m1 = m.writeNode a { n with prev := p } := by
  unfold Store.setPrev at h
  cases hn : m.node a with
  | none => simp [hn] at h
  | some n => exact ⟨n, rfl, by simpa [hn] using h.symm⟩

theorem Store.setNext_some {m : Store} {a : Nat} {n : ListNode} (p : Ptr)
    (h : m.node a = some n) : m.setNext a p = some (m.writeNode a { n with next := p }) := by
  simp [Store.setNext, h]

theorem Store.setPrev_some {m : Store} {a : Nat} {n : ListNode} (p : Ptr)
    (h : m.node a = some n) : m.setPrev a p = some (m.writeNode a { n with prev := p }) := by
  simp [Store.setPrev, h]

theorem Store.node_freeNode {m : Store} {a : Nat} {n : ListNode} (h : m.node a = some n)
    (b : Nat) :
    m.freeNode a = some { m with nodes := m.nodes.set a none } ∧
    (Store.node { m with nodes := m.nodes.set a none } b = if b = a then none else m.node b) := by
  refine ⟨by simp [Store.freeNode, h], ?_⟩
  have ha := Store.node_lt h
  unfold Store.node
  by_cases hb : b = a
  · subst hb; simp [ha]
  · simp [hb, List.getElem?_set_ne (Ne.symm hb)]

theorem Store.val_freeVal {m : Store} {p : Nat} {v : Bytes} (h : m.val p = some v)
    (q : Nat) :
    m.freeVal (some p) = some { m with vals := m.vals.set p none } ∧
    (Store.val { m with vals := m.vals.set p none } q = if q = p then none else m.val q) := by
  refine ⟨by simp [Store.freeVal, h], ?_⟩
  have hp := Store.val_lt h
  unfold Store.val
  by_cases hq : q = p
  · subst hq; simp [hp]
  · simp [hq, List.getElem?_set_ne (Ne.symm hq)]

/-! ## Lemmas on segments -/

theorem Seg.frame {m m1 : Store} :
    ∀ {g : List Cell} {prev cur last nxt : Ptr}, Seg m prev cur g last nxt →
      (∀ x ∈ g, m1.node x.addr = m.node x.addr) →
      (∀ x ∈ g, m1.val x.vptr = m.val x.vptr) → Seg m1 prev cur g last nxt
  | [], _, _, _, _, h, _, _ => h
  | c :: rest, _, _, _, _, h, hn, hv => by
    obtain ⟨hc, n, hnode, hval, hrest⟩ := h
    refine ⟨hc, n, ?_, ?_, ?_⟩
    · rw [hn c (List.mem_cons_self _ _)]; exact hnode
    · rw [hv c (List.mem_cons_self _ _)]; exact hval
    · exact Seg.frame hrest (fun x hx => hn x (List.mem_cons_of_mem _ hx))
        (fun x hx => hv x (List.mem_cons_of_mem _ hx))

theorem Seg.append {m : Store} :
    ∀ {xs ys : List Cell} {prev cur last nxt : Ptr},
      Seg m prev cur (xs ++ ys) last nxt ↔
        ∃ ml mc, Seg m prev cur xs ml mc ∧ Seg m ml mc ys last nxt
  | [], ys, prev, cur, last, nxt => by
    constructor
    · intro h; exact ⟨prev, cur, ⟨rfl, rfl⟩, h⟩
    · rintro ⟨ml, mc, ⟨h1, h2⟩, h⟩; subst h1; subst h2; exact h
  | c :: xs, ys, prev, cur, last, nxt => by
    constructor
    · rintro ⟨hc, n, hnode, hval, hrest⟩
      obtain ⟨ml, mc, h1, h2⟩ := Seg.append.mp hrest
      exact ⟨ml, mc, ⟨hc, n, hnode, hval, h1⟩, h2⟩
    · rintro ⟨ml, mc, ⟨hc, n, hnode, hval, h1⟩, h2⟩
      exact ⟨hc, n, hnode, hval, Seg.append.mpr ⟨ml, mc, h1, h2⟩⟩

theorem Seg.live {m : Store} :
    ∀ {g : List Cell} {prev cur last nxt : Ptr}, Seg m prev cur g last nxt →
      ∀ x ∈ g, x.addr < m.nodes.length ∧ x.vptr < m.vals.length
  | [], _, _, _, _, _, x, hx => by simp at hx
  | c :: rest, _, _, _, _, h, x, hx => by
    obtain ⟨_, n, hnode, hval, hrest⟩ := h
    rcases List.mem_cons.mp hx with rfl | hx
    · exact ⟨Store.node_lt hnode, Store.val_lt hval⟩
    · exact Seg.live hrest x hx

/-- The first pointer of a segment. -/
theorem Seg.cur_eq {m : Store} {g : List Cell} {prev cur last nxt : Ptr}
    (h : Seg m prev cur g last nxt) :
    cur = match g with
      | [] => nxt
      | c :: _ => some c.addr := by
  cases g with
  | nil => exact h.1
  | cons c rest => exact h.1

/-- The last pointer of a segment. -/
theorem Seg.last_eq {m : Store} :
    ∀ {g : List Cell} {prev cur last nxt : Ptr}, Seg m prev cur g last nxt →
      last = match g.getLast? with
        | none => prev
        | some c => some c.addr
  | [], _, _, _, _, h => h.2
  | [c], _, _, _, _, h => by
    obtain ⟨_, n, _, _, hrest⟩ := h
    simpa using hrest.2
  | c :: d :: rest, _, _, _, _, h => by
    obtain ⟨_, n, _, _, hrest⟩ := h
    have := Seg.last_eq hrest
    simpa [List.getLast?_cons_cons] using this

theorem nodup_bounded_length :
    ∀ (n : Nat) (xs : List Nat), xs.Nodup → (∀ x ∈ xs, x < n) → xs.length ≤ n := by
  intro n xs hnd hlt
  have hsub : xs ⊆ List.range n := fun x hx => List.mem_range.mpr (hlt x hx)
  have := (List.subperm_of_subset hnd hsub).length_le
  simpa using this

theorem WellFormed.length_le {m : Store} {l : LinkedList} {g : List Cell}
    (h : WellFormed m l g) : g.length ≤ m.nodes.length := by
  have := nodup_bounded_length m.nodes.length (g.map Cell.addr) h.nodup (by
    intro x hx
    obtain ⟨c, hc, rfl⟩ := List.mem_map.mp hx
    exact (Seg.live h.chain c hc).1)
  simpa using this

/-! ## Walking a well-formed list -/

theorem walkNext_seg {m : Store} :
    ∀ {g : List Cell} {prev cur last : Ptr} (fuel : Nat), Seg m prev cur g last none →
      g.length ≤ fuel → walkNext m fuel cur = some (g.map Cell.addr)
  | [], _, _, _, fuel, h, _ => by
    obtain ⟨rfl, _⟩ := h
    cases fuel <;> rfl
  | c :: rest, _, _, _, 0, _, hf => by simp at hf
  | c :: rest, _, _, _, fuel + 1, h, hf => by
    obtain ⟨rfl, n, hnode, _, hrest⟩ := h
    have ih := walkNext_seg fuel hrest (by simpa using hf)
    simp [walkNext, hnode, ih]

theorem nodeValue_seg {m : Store} :
    ∀ {g : List Cell} {prev cur last nxt : Ptr}, Seg m prev cur g last nxt →
      nodeValues m (g.map Cell.addr) = some (g.map Cell.bytes)
  | [], _, _, _, _, _ => rfl
  | c :: rest, _, _, _, _, h => by
    obtain ⟨_, n, hnode, hval, hrest⟩ := h
    have ih := nodeValue_seg hrest
    simp [nodeValues, nodeValue, hnode, hval, ih]

theorem WellFormed.reachableNodes_eq {m : Store} {l : LinkedList} {g : List Cell}
    (h : WellFormed m l g) : reachableNodes m l = some (g.map Cell.addr) :=
  walkNext_seg _ h.chain h.length_le

theorem WellFormed.frontToBack_eq {m : Store} {l : LinkedList} {g : List Cell}
    (h : WellFormed m l g) : frontToBack m l = some (g.map Cell.bytes) := by
  simp [frontToBack, h.reachableNodes_eq, nodeValue_seg h.chain]

theorem searchFrom_seg {m : Store} (compare : Bytes → Bytes → Int) (value : Bytes) :
    ∀ {g : List Cell} {prev cur last : Ptr} (fuel : Nat), Seg m prev cur g last none →
      g.length ≤ fuel →
      searchFrom m compare value fuel cur =
        some ((g.find? fun c => decide (compare c.bytes value = 0)).map Cell.addr)
  | [], _, _, _, fuel, h, _ => by
    obtain ⟨rfl, _⟩ := h
    cases fuel <;> rfl
  | c :: rest, _, _, _, 0, _, hf => by simp at hf
  | c :: rest, _, _, _, fuel + 1, h, hf => by
    obtain ⟨rfl, n, hnode, hval, hrest⟩ := h
    have ih := searchFrom_seg compare value fuel hrest (by simpa using hf)
    by_cases hc : compare c.bytes value = 0
    · simp [searchFrom, hnode, hval, hc]
    · simp [searchFrom, hnode, hval, hc, ih]

theorem WellFormed.search_eq {m : Store} {l : LinkedList} {g : List Cell}
    (h : WellFormed m l g) (value : Bytes) :
    linkedListSearch m (some l) value =
      some ((g.find? fun c => decide (l.compare c.bytes value = 0)).map Cell.addr) :=
  searchFrom_seg l.compare value _ h.chain h.length_le

/-! ## Insertion -/

theorem listNodeCreate_ok (m : Store) (value : Bytes) (size : Int) (hs0 : 0 ≤ size)
    (hs1 : size ≤ value.length) :
    listNodeCreate m value size true true =
      some (allocated m value size, some m.nodes.length) := by
  have : ¬ (size < 0 ∨ (value.length : Int) < size) := by omega
  simp [listNodeCreate, this, allocated]

theorem allocated_node (m : Store) (value : Bytes) (size : Int) (b : Nat) :
    (allocated m value size).node b =
      if b = m.nodes.length then some ⟨none, none, some m.vals.length⟩ else m.node b := by
  unfold allocated Store.node
  rcases Nat.lt_trichotomy b m.nodes.length with hb | hb | hb
  · simp [List.getElem?_append_left hb, Nat.ne_of_lt hb]
  · subst hb; simp
  · have h1 : m.nodes[b]? = none := List.getElem?_eq_none (by omega)
    have h2 : (m.nodes ++ [some (⟨none, none, some m.vals.length⟩ : ListNode)])[b]? = none :=
      List.getElem?_eq_none (by simp; omega)
    simp [h1, h2, Nat.ne_of_gt hb]

theorem allocated_val (m : Store) (value : Bytes) (size : Int) (q : Nat) :
    (allocated m value size).val q =
      if q = m.vals.length then some (value.take size.toNat) else m.val q := by
  unfold allocated Store.val
  rcases Nat.lt_trichotomy q m.vals.length with hb | hb | hb
  · simp [List.getElem?_append_left hb, Nat.ne_of_lt hb]
  · subst hb; simp
  · have h1 : m.vals[q]? = none := List.getElem?_eq_none (by omega)
    have h2 : (m.vals ++ [some (value.take size.toNat)])[q]? = none :=
      List.getElem?_eq_none (by simp; omega)
    simp [h1, h2, Nat.ne_of_gt hb]

theorem allocated_nodes_length (m : Store) (value : Bytes) (size : Int) :
    (allocated m value size).nodes.length = m.nodes.length + 1 := by
  simp [allocated]

theorem Seg.allocated {m : Store} {g : List Cell} {prev cur last nxt : Ptr}
    (h : Seg m prev cur g last nxt) (value : Bytes) (size : Int) :
    Seg (allocated m value size) prev cur g last nxt := by
  refine Seg.frame h ?_ ?_
  · intro x hx
    rw [allocated_node, if_neg (Nat.ne_of_lt (Seg.live h x hx).1)]
  · intro x hx
    rw [allocated_val, if_neg (Nat.ne_of_lt (Seg.live h x hx).2)]

theorem insertFront_spec {m : Store} {l : LinkedList} {g : List Cell}
    (h : WellFormed m l g) (value : Bytes) (size : Int) (hs0 : 0 ≤ size)
    (hs1 : size ≤ value.length) :
    ∃ m1 l1, linkedListInsertFront m (some l) value size true true = some ⟨0, m1, some l1⟩ ∧
      WellFormed m1 l1 (newCell m value size :: g) ∧ l1.size = l.size + 1 ∧
      l1.compare = l.compare := by
  have hc := listNodeCreate_ok m value size hs0 hs1
  have hnew : (allocated m value size).node m.nodes.length =
      some ⟨none, none, some m.vals.length⟩ := by simp [allocated_node]
  have hlen := allocated_nodes_length m value size
  cases g with
  | nil =>
    obtain ⟨hh, ht⟩ := h.chain
    refine ⟨(allocated m value size).writeNode m.nodes.length ⟨none, none, some m.vals.length⟩,
      ⟨l.compare, some m.nodes.length, some m.nodes.length, l.size + 1⟩, ?_, ?_, rfl, rfl⟩
    · simp [linkedListInsertFront, Store.setPrevIf, hc, hh, ht, Store.setNext_some _ hnew]
    · refine ⟨?_, by simp, by simp, by simp [h.size]⟩
      refine ⟨rfl, none, ?_, ?_, rfl, rfl⟩
      · rw [Store.node_writeNode _ _ (by omega)]; simp [newCell]
      · show (allocated m value size).val _ = _
        simp [allocated_val, newCell]
  | cons c rest =>
    obtain ⟨hh, n, hnode, hval, hrest⟩ := h.chain
    have hlive := Seg.live h.chain
    have hca : c.addr < m.nodes.length := (hlive c (List.mem_cons_self _ _)).1
    have hcv : c.vptr < m.vals.length := (hlive c (List.mem_cons_self _ _)).2
    have ht : l.tail ≠ none := by
      have := Seg.last_eq h.chain
      cases hgl : (c :: rest).getLast? with
      | none => simp at hgl
      | some d => rw [hgl] at this; simp [this]
    have hnodec : (allocated m value size).node c.addr = some ⟨n, none, some c.vptr⟩ := by
      rw [allocated_node, if_neg (Nat.ne_of_lt hca)]; exact hnode
    have hnew2 : ((allocated m value size).writeNode c.addr
        ⟨n, some m.nodes.length, some c.vptr⟩).node m.nodes.length =
        some ⟨none, none, some m.vals.length⟩ := by
      rw [Store.node_writeNode _ _ (by omega), if_neg (Nat.ne_of_gt hca)]; exact hnew
    refine ⟨((allocated m value size).writeNode c.addr
        ⟨n, some m.nodes.length, some c.vptr⟩).writeNode m.nodes.length
        ⟨some c.addr, none, some m.vals.length⟩,
      ⟨l.compare, some m.nodes.length, l.tail, l.size + 1⟩, ?_, ?_, rfl, rfl⟩
    · simp [linkedListInsertFront, Store.setPrevIf, hc, hh, ht, Store.setPrev_some _ hnodec,
        Store.setNext_some _ hnew2]
    · have hnd := h.nodup
      have hvnd := h.vnodup
      simp only [List.map_cons, List.nodup_cons] at hnd hvnd
      refine ⟨?_, ?_, ?_, by simp [h.size]⟩
      · refine ⟨rfl, some c.addr, ?_, ?_, rfl, n, ?_, ?_, ?_⟩
        · rw [Store.node_writeNode _ _ (by simp [Store.writeNode]; omega)]; simp [newCell]
        · show (allocated m value size).val _ = _
          simp [allocated_val, newCell]
        · rw [Store.node_writeNode _ _ (by simp [Store.writeNode]; omega),
            if_neg (Nat.ne_of_lt hca), Store.node_writeNode _ _ (by omega)]
          simp [newCell]
        · show (allocated m value size).val _ = _
          rw [allocated_val, if_neg (Nat.ne_of_lt hcv)]; exact hval
        · refine Seg.frame hrest ?_ ?_
          · intro x hx
            have hxa : x.addr < m.nodes.length := (hlive x (List.mem_cons_of_mem _ hx)).1
            have hxc : x.addr ≠ c.addr := by
              intro e; exact hnd.1 (List.mem_map.mpr ⟨x, hx, e⟩)
            rw [Store.node_writeNode _ _ (by simp [Store.writeNode]; omega),
              if_neg (Nat.ne_of_lt hxa), Store.node_writeNode _ _ (by omega), if_neg hxc,
              allocated_node, if_neg (Nat.ne_of_lt hxa)]
          · intro x hx
            have hxv : x.vptr < m.vals.length := (hlive x (List.mem_cons_of_mem _ hx)).2
            show (allocated m value size).val _ = _
            rw [allocated_val, if_neg (Nat.ne_of_lt hxv)]
      · simp only [List.map_cons, List.nodup_cons]
        refine ⟨?_, hnd⟩
        intro hmem
        rcases List.mem_cons.mp hmem with e | hmem
        · simp [newCell] at e; omega
        · obtain ⟨x, hx, e⟩ := List.mem_map.mp hmem
          have := (hlive x (List.mem_cons_of_mem _ hx)).1
          simp [newCell] at e; omega
      · simp only [List.map_cons, List.nodup_cons]
        refine ⟨?_, hvnd⟩
        intro hmem
        rcases List.mem_cons.mp hmem with e | hmem
        · simp [newCell] at e; omega
        · obtain ⟨x, hx, e⟩ := List.mem_map.mp hmem
          have := (hlive x (List.mem_cons_of_mem _ hx)).2
          simp [newCell] at e; omega

theorem fresh_not_mem_addr {m : Store} {g : List Cell} {prev cur last nxt : Ptr}
    (h : Seg m prev cur g last nxt) : m.nodes.length ∉ g.map Cell.addr := by
  intro hmem
  obtain ⟨x, hx, e⟩ := List.mem_map.mp hmem
  have := (Seg.live h x hx).1
  omega

theorem fresh_not_mem_vptr {m : Store} {g : List Cell} {prev cur last nxt : Ptr}
    (h : Seg m prev cur g last nxt) : m.vals.length ∉ g.map Cell.vptr := by
  intro hmem
  obtain ⟨x, hx, e⟩ := List.mem_map.mp hmem
  have := (Seg.live h x hx).2
  omega

theorem nodup_concat_of_not_mem {xs : List Nat} {a : Nat} (h : xs.Nodup) (ha : a ∉ xs) :
    (xs ++ [a]).Nodup := by
  refine List.Nodup.append h (List.nodup_singleton a) ?_
  intro x hx hx1
  rw [List.mem_singleton] at hx1
  subst hx1
  exact ha hx

theorem insertBack_spec {m : Store} {l : LinkedList} {g : List Cell}
    (h : WellFormed m l g) (value : Bytes) (size : Int) (hs0 : 0 ≤ size)
    (hs1 : size ≤ value.length) :
    ∃ m1 l1, linkedListInsertBack m (some l) value size true true = some ⟨0, m1, some l1⟩ ∧
      WellFormed m1 l1 (g ++ [newCell m value size]) ∧ l1.size = l.size + 1 ∧
      l1.compare = l.compare := by
  have hc := listNodeCreate_ok m value size hs0 hs1
  have hnew : (allocated m value size).node m.nodes.length =
      some ⟨none, none, some m.vals.length⟩ := by simp [allocated_node]
  have hlen := allocated_nodes_length m value size
  have hlive := Seg.live h.chain
  have hfa := fresh_not_mem_addr h.chain
  have hfv := fresh_not_mem_vptr h.chain
  have hnd1 : ((g ++ [newCell m value size]).map Cell.addr).Nodup := by
    rw [List.map_append]; exact nodup_concat_of_not_mem h.nodup hfa
  have hnd2 : ((g ++ [newCell m value size]).map Cell.vptr).Nodup := by
    rw [List.map_append]; exact nodup_concat_of_not_mem h.vnodup hfv
  have hsz : l.size + 1 = ((g ++ [newCell m value size]).length : Int) := by
    simp [h.size]
  rcases List.eq_nil_or_concat g with rfl | ⟨xs, c, hg⟩
  · obtain ⟨hh, ht⟩ := h.chain
    refine ⟨(allocated m value size).writeNode m.nodes.length ⟨none, none, some m.vals.length⟩,
      ⟨l.compare, some m.nodes.length, some m.nodes.length, l.size + 1⟩, ?_, ?_, rfl, rfl⟩
    · simp [linkedListInsertBack, Store.setNextIf, hc, hh, ht, Store.setPrev_some _ hnew]
    · refine ⟨?_, hnd1, hnd2, hsz⟩
      refine ⟨rfl, none, ?_, ?_, rfl, rfl⟩
      · rw [Store.node_writeNode _ _ (by omega)]; simp [newCell]
      · show (allocated m value size).val _ = _
        simp [allocated_val, newCell]
  · rw [List.concat_eq_append] at hg
    subst hg
    obtain ⟨ml, mc, hxs, hmc, n, hnode, hval, hn, ht⟩ := Seg.append.mp h.chain
    have hca : c.addr < m.nodes.length := (hlive c (by simp)).1
    have hcv : c.vptr < m.vals.length := (hlive c (by simp)).2
    have hh : l.head ≠ none := by
      have := Seg.cur_eq hxs
      cases xs with
      | nil => simp at this; simp [this, hmc]
      | cons d ds => simp at this; simp [this]
    have hnodec : (allocated m value size).node c.addr = some ⟨n, ml, some c.vptr⟩ := by
      rw [allocated_node, if_neg (Nat.ne_of_lt hca)]; exact hnode
    have hnew2 : ((allocated m value size).writeNode c.addr
        ⟨some m.nodes.length, ml, some c.vptr⟩).node m.nodes.length =
        some ⟨none, none, some m.vals.length⟩ := by
      rw [Store.node_writeNode _ _ (by omega), if_neg (Nat.ne_of_gt hca)]; exact hnew
    refine ⟨((allocated m value size).writeNode c.addr
        ⟨some m.nodes.length, ml, some c.vptr⟩).writeNode m.nodes.length
        ⟨none, some c.addr, some m.vals.length⟩,
      ⟨l.compare, l.head, some m.nodes.length, l.size + 1⟩, ?_, ?_, rfl, rfl⟩
    · simp [linkedListInsertBack, Store.setNextIf, hc, hh, ht, Store.setNext_some _ hnodec,
        Store.setPrev_some _ hnew2]
    · have hnd := h.nodup
      rw [List.map_append, List.nodup_append] at hnd
      refine ⟨?_, hnd1, hnd2, hsz⟩
      rw [List.append_assoc]
      refine Seg.append.mpr ⟨ml, mc, ?_, ?_⟩
      · refine Seg.frame hxs ?_ ?_
        · intro x hx
          have hxa : x.addr < m.nodes.length := (hlive x (by simp [hx])).1
          have hxc : x.addr ≠ c.addr := by
            intro e
            exact hnd.2.2 (List.mem_map.mpr ⟨x, hx, rfl⟩) (by simp [e])
          rw [Store.node_writeNode _ _ (by simp [Store.writeNode]; omega),
            if_neg (Nat.ne_of_lt hxa), Store.node_writeNode _ _ (by omega), if_neg hxc,
            allocated_node, if_neg (Nat.ne_of_lt hxa)]
        · intro x hx
          have hxv : x.vptr < m.vals.length := (hlive x (by simp [hx])).2
          show (allocated m value size).val _ = _
          rw [allocated_val, if_neg (Nat.ne_of_lt hxv)]
      · refine ⟨hmc, some m.nodes.length, ?_, ?_, rfl, none, ?_, ?_, rfl, rfl⟩
        · rw [Store.node_writeNode _ _ (by simp [Store.writeNode]; omega),
            if_neg (Nat.ne_of_lt hca), Store.node_writeNode _ _ (by omega)]
          simp
        · show (allocated m value size).val _ = _
          rw [allocated_val, if_neg (Nat.ne_of_lt hcv)]; exact hval
        · rw [Store.node_writeNode _ _ (by simp [Store.writeNode]; omega)]; simp [newCell]
        · show (allocated m value size).val _ = _
          simp [allocated_val, newCell]

/-! ## Popping -/

theorem popFront_spec {m : Store} {l : LinkedList} {c : Cell} {g : List Cell}
    (h : WellFormed m l (c :: g)) :
    ∃ m1 l1, linkedListPopFront m (some l) = some ⟨some c.vptr, m1, some l1⟩ ∧
      deref m1 (some c.vptr) = some c.bytes ∧
      frontToBack m1 l1 = some (g.map Cell.bytes) ∧
      reachableNodes m1 l1 = some (g.map Cell.addr) ∧
      l1.size = l.size - 1 := by
  obtain ⟨hh, n, hnode, hval, hrest⟩ := h.chain
  have hfree := Store.node_freeNode hnode
  have hnd := h.nodup
  simp only [List.map_cons, List.nodup_cons] at hnd
  have hseg : Seg { m with nodes := m.nodes.set c.addr none } (some c.addr) n g l.tail none := by
    refine Seg.frame hrest ?_ (fun _ _ => rfl)
    intro x hx
    have hxc : x.addr ≠ c.addr := fun e => hnd.1 (List.mem_map.mpr ⟨x, hx, e⟩)
    rw [(hfree x.addr).2, if_neg hxc]
  have hlen : g.length ≤ (m.nodes.set c.addr none).length := by
    have := h.length_le
    simp at this ⊢
    omega
  have hwalk := walkNext_seg _ hseg hlen
  refine ⟨{ m with nodes := m.nodes.set c.addr none },
    ⟨l.compare, n, if l.size = 1 then none else l.tail, l.size - 1⟩, ?_, ?_, ?_, ?_, rfl⟩
  · simp only [linkedListPopFront, hh, hnode, (hfree 0).1, Option.bind_eq_bind,
      Option.some_bind, Option.pure_def]
    by_cases h1 : l.size = 1 <;> simp [h1]
  · exact hval
  · simp only [frontToBack, reachableNodes, Option.bind_eq_bind]
    rw [hwalk]
    exact nodeValue_seg hseg
  · exact hwalk

theorem popBack_spec {m : Store} {l : LinkedList} {c : Cell} {g : List Cell}
    (h : WellFormed m l (g ++ [c])) :
    ∃ m1 l1, linkedListPopBack m (some l) = some ⟨some c.vptr, m1, some l1⟩ ∧
      deref m1 (some c.vptr) = some c.bytes ∧ l1.size = l.size - 1 := by
  obtain ⟨ml, mc, hxs, hmc, n, hnode, hval, hn, ht⟩ := Seg.append.mp h.chain
  have hfree := Store.node_freeNode hnode
  have hh : ∃ a, l.head = some a := by
    have := Seg.cur_eq hxs
    cases g with
    | nil => simp at this; exact ⟨c.addr, by rw [this, hmc]⟩
    | cons d ds => simp at this; exact ⟨d.addr, this⟩
  obtain ⟨a, hh⟩ := hh
  refine ⟨{ m with nodes := m.nodes.set c.addr none },
    ⟨l.compare, if l.size = 1 then none else l.head, ml, l.size - 1⟩, ?_, ?_, rfl⟩
  · simp only [linkedListPopBack, hh, ht, hnode, (hfree 0).1, Option.bind_eq_bind,
      Option.some_bind, Option.pure_def]
    by_cases h1 : l.size = 1 <;> simp [h1, hh]
  · exact hval

/-! ## Removal -/

/-- Redirecting the `prev` link of the first node of a chain. -/
theorem Seg.setPrev_first {m : Store} {g : List Cell} {prev cur last : Ptr}
    (h : Seg m prev cur g last none) (hnd : (g.map Cell.addr).Nodup) (p1 : Ptr) :
    ∃ m1, m.setPrevIf cur p1 = some m1 ∧
      Seg m1 p1 cur g (if g = [] then p1 else last) none ∧
      (∀ b, b ∉ g.map Cell.addr → m1.node b = m.node b) ∧ m1.vals = m.vals := by
  cases g with
  | nil =>
    obtain ⟨rfl, rfl⟩ := h
    exact ⟨m, rfl, ⟨rfl, by simp⟩, fun _ _ => rfl, rfl⟩
  | cons q ys =>
    obtain ⟨rfl, n, hnode, hval, hrest⟩ := h
    simp only [List.map_cons, List.nodup_cons] at hnd
    have hq := Store.node_lt hnode
    refine ⟨m.writeNode q.addr ⟨n, p1, some q.vptr⟩, ?_, ?_, ?_, rfl⟩
    · simp [Store.setPrevIf, Store.setPrev_some _ hnode]
    · refine ⟨rfl, n, ?_, hval, ?_⟩
      · rw [Store.node_writeNode _ _ hq]; simp
      · simp only [reduceCtorEq, if_false]
        refine Seg.frame hrest ?_ (fun _ _ => rfl)
        intro x hx
        have hxq : x.addr ≠ q.addr := fun e => hnd.1 (List.mem_map.mpr ⟨x, hx, e⟩)
        rw [Store.node_writeNode _ _ hq, if_neg hxq]
    · intro b hb
      have hbq : b ≠ q.addr := fun e => hb (by simp [e])
      rw [Store.node_writeNode _ _ hq, if_neg hbq]

/-- Redirecting the `next` link of the last node of a chain. -/
theorem Seg.setNext_last {m : Store} {g : List Cell} {cur last nxt : Ptr}
    (h : Seg m none cur g last nxt) (hnd : (g.map Cell.addr).Nodup) (n1 : Ptr) :
    ∃ m1, m.setNextIf last n1 = some m1 ∧
      Seg m1 none (if g = [] then n1 else cur) g last n1 ∧
      (∀ b, b ∉ g.map Cell.addr → m1.node b = m.node b) ∧ m1.vals = m.vals := by
  rcases List.eq_nil_or_concat g with rfl | ⟨xs, p, hg⟩
  · obtain ⟨rfl, rfl⟩ := h
    exact ⟨m, rfl, ⟨by simp, rfl⟩, fun _ _ => rfl, rfl⟩
  · rw [List.concat_eq_append] at hg
    subst hg
    obtain ⟨ml, mc, hxs, hmc, n, hnode, hval, hn, hl⟩ := Seg.append.mp h
    subst hl
    rw [List.map_append, List.nodup_append] at hnd
    have hp := Store.node_lt hnode
    refine ⟨m.writeNode p.addr ⟨n1, ml, some p.vptr⟩, ?_, ?_, ?_, rfl⟩
    · simp [Store.setNextIf, Store.setNext_some _ hnode]
    · have hne : xs ++ [p] ≠ [] := by simp
      rw [if_neg hne]
      refine Seg.append.mpr ⟨ml, mc, ?_, hmc, n1, ?_, hval, rfl, rfl⟩
      · refine Seg.frame hxs ?_ (fun _ _ => rfl)
        intro x hx
        have hxp : x.addr ≠ p.addr := by
          intro e
          exact hnd.2.2 (List.mem_map.mpr ⟨x, hx, rfl⟩) (by simp [e])
        rw [Store.node_writeNode _ _ hp, if_neg hxp]
      · rw [Store.node_writeNode _ _ hp]; simp
    · intro b hb
      have hbp : b ≠ p.addr := fun e => hb (by simp [e])
      rw [Store.node_writeNode _ _ hp, if_neg hbp]

theorem find_first_match {p : Cell → Bool} {pre post : List Cell} {c : Cell}
    (hpre : ∀ x ∈ pre, p x = false) (hc : p c = true) :
    (pre ++ c :: post).find? p = some c := by
  induction pre with
  | nil => simp [List.find?, hc]
  | cons d ds ih =>
    have hd : p d = false := hpre d (List.mem_cons_self _ _)
    simp only [List.cons_append, List.find?, hd]
    exact ih (fun x hx => hpre x (List.mem_cons_of_mem _ hx))

theorem removeValue_found {m : Store} {l : LinkedList} {pre post : List Cell} {c : Cell}
    (h : WellFormed m l (pre ++ c :: post)) (value : Bytes)
    (hpre : ∀ x ∈ pre, l.compare x.bytes value ≠ 0) (hc : l.compare c.bytes value = 0) :
    ∃ m1 l1, linkedListRemoveValue m (some l) value = some ⟨0, m1, some l1⟩ ∧
      WellFormed m1 l1 (pre ++ post) ∧ l1.size = l.size - 1 ∧ l1.compare = l.compare ∧
      m1.node c.addr = none ∧ m1.val c.vptr = none := by
  have hsearch : linkedListSearch m (some l) value = some (some c.addr) := by
    rw [h.search_eq, find_first_match (by simpa using hpre) (by simpa using hc)]
    rfl
  obtain ⟨ml, mc, hp, hmc, cn, hnode, hval, hq⟩ := Seg.append.mp h.chain
  -- no node and no value block occurs twice
  have hnd := h.nodup
  rw [List.map_append, List.map_cons, List.nodup_middle, List.nodup_cons,
    List.nodup_append, List.mem_append, not_or] at hnd
  obtain ⟨⟨hcpre, hcpost⟩, hndpre, hndpost, hdisj⟩ := hnd
  have hvnd := h.vnodup
  rw [List.map_append, List.map_cons, List.nodup_middle, List.nodup_cons,
    List.nodup_append, List.mem_append, not_or] at hvnd
  obtain ⟨⟨hvpre, hvpost⟩, hvndpre, hvndpost, hvdisj⟩ := hvnd
  have hpre_addr : ∀ x ∈ pre, x.addr ∈ pre.map Cell.addr :=
    fun x hx => List.mem_map.mpr ⟨x, hx, rfl⟩
  have hpost_addr : ∀ x ∈ post, x.addr ∈ post.map Cell.addr :=
    fun x hx => List.mem_map.mpr ⟨x, hx, rfl⟩
  -- first guarded assignment
  obtain ⟨m1, hs1, hseg1, hfr1, hv1⟩ := Seg.setNext_last hp hndpre cn
  have hnode1 : m1.node c.addr = some ⟨cn, ml, some c.vptr⟩ := by
    rw [hfr1 _ hcpre]; exact hnode
  have hq1 : Seg m1 (some c.addr) cn post l.tail none := by
    refine Seg.frame hq (fun x hx => hfr1 _ ?_) (fun x _ => by unfold Store.val; rw [hv1])
    exact fun hmem => hdisj hmem (hpost_addr x hx)
  -- second guarded assignment
  obtain ⟨m2, hs2, hseg2, hfr2, hv2⟩ := Seg.setPrev_first hq1 hndpost ml
  have hnode2 : m2.node c.addr = some ⟨cn, ml, some c.vptr⟩ := by
    rw [hfr2 _ hcpost]; exact hnode1
  have hseg1b : Seg m2 none (if pre = [] then cn else l.head) pre ml cn := by
    refine Seg.frame hseg1 (fun x hx => hfr2 _ ?_) (fun x _ => by unfold Store.val; rw [hv2])
    exact fun hmem => hdisj (hpre_addr x hx) hmem
  have hval2 : m2.val c.vptr = some c.bytes := by
    unfold Store.val; rw [hv2, hv1]; exact hval
  -- the node is destroyed
  have hfv := Store.val_freeVal hval2
  have hnode3 : Store.node { m2 with vals := m2.vals.set c.vptr none } c.addr =
      some ⟨cn, ml, some c.vptr⟩ := hnode2
  have hfn := Store.node_freeNode hnode3
  have hdestroy : listNodeDestroy m2 c.addr =
      some { nodes := m2.nodes.set c.addr none, vals := m2.vals.set c.vptr none } := by
    simp only [listNodeDestroy, hnode2, Option.bind_eq_bind, Option.some_bind, (hfv 0).1]
    exact (hfn 0).1
  -- head and tail
  have hhead : (some c.addr = l.head) ↔ pre = [] := by
    have := Seg.cur_eq hp
    cases pre with
    | nil => simp at this; simp [this, hmc]
    | cons d ds =>
      simp at this
      have hd : c.addr ≠ d.addr := fun e => hcpre (by simp [e])
      simp [this, hd]
  have htail : (some c.addr = l.tail) ↔ post = [] := by
    have := Seg.last_eq hq
    cases hgl : post.getLast? with
    | none =>
      rw [hgl] at this
      simp [this, List.getLast?_eq_none_iff.mp hgl]
    | some d =>
      rw [hgl] at this
      have hdm : d ∈ post := List.mem_of_getLast?_eq_some hgl
      have hd : c.addr ≠ d.addr := fun e => hcpost (e ▸ hpost_addr d hdm)
      have hne : post ≠ [] := fun e => by simp [e] at hdm
      simp [this, hd, hne]
  refine ⟨{ nodes := m2.nodes.set c.addr none, vals := m2.vals.set c.vptr none },
    ⟨l.compare, if pre = [] then cn else l.head, if post = [] then ml else l.tail,
      l.size - 1⟩, ?_, ?_, rfl, rfl, ?_, ?_⟩
  · simp only [linkedListRemoveValue, hsearch, hnode, hs1, hnode1, hs2, hnode2, hdestroy,
      Option.bind_eq_bind, Option.some_bind, Option.pure_def]
    by_cases h1 : pre = [] <;> by_cases h2 : post = [] <;>
      simp [h1, h2, hhead, htail]
  · refine ⟨?_, ?_, ?_, ?_⟩
    · refine Seg.append.mpr ⟨ml, cn, ?_, ?_⟩
      · refine Seg.frame hseg1b ?_ ?_
        · intro x hx
          have hxc : x.addr ≠ c.addr := fun e => hcpre (e ▸ hpre_addr x hx)
          rw [(hfn x.addr).2, if_neg hxc]
          rfl
        · intro x hx
          have hxc : x.vptr ≠ c.vptr :=
            fun e => hvpre (e ▸ List.mem_map.mpr ⟨x, hx, rfl⟩)
          show Store.val { m2 with vals := m2.vals.set c.vptr none } x.vptr = _
          rw [(hfv x.vptr).2, if_neg hxc]
      · refine Seg.frame hseg2 ?_ ?_
        · intro x hx
          have hxc : x.addr ≠ c.addr := fun e => hcpost (e ▸ hpost_addr x hx)
          rw [(hfn x.addr).2, if_neg hxc]
          rfl
        · intro x hx
          have hxc : x.vptr ≠ c.vptr :=
            fun e => hvpost (e ▸ List.mem_map.mpr ⟨x, hx, rfl⟩)
          show Store.val { m2 with vals := m2.vals.set c.vptr none } x.vptr = _
          rw [(hfv x.vptr).2, if_neg hxc]
    · rw [List.map_append, List.nodup_append]; exact ⟨hndpre, hndpost, hdisj⟩
    · rw [List.map_append, List.nodup_append]; exact ⟨hvndpre, hvndpost, hvdisj⟩
    · simp [h.size]; ring
  · rw [(hfn c.addr).2]; simp
  · show Store.val { m2 with vals := m2.vals.set c.vptr none } c.vptr = _
    rw [(hfv c.vptr).2]; simp

theorem removeValue_not_found {m : Store} {l : LinkedList} {g : List Cell}
    (h : WellFormed m l g) (value : Bytes)
    (hno : ∀ x ∈ g, l.compare x.bytes value ≠ 0) :
    linkedListRemoveValue m (some l) value = some ⟨-1, m, some l⟩ := by
  have hfind : (g.find? fun c => decide (l.compare c.bytes value = 0)) = none := by
    rw [List.find?_eq_none]
    intro x hx
    simpa using hno x hx
  simp [linkedListRemoveValue, h.search_eq, hfind]

/-! ## The claims on the linked list -/

theorem fiveTwenty_wellFormed : WellFormed fiveTwenty.1 fiveTwenty.2 fiveTwentyCells :=
  ⟨⟨rfl, some 1, rfl, rfl, rfl, none, rfl, rfl, rfl, rfl⟩, by decide, by decide, rfl⟩

/-- C1: `linkedListPopBack` on the well-formed list `[5, 20]` (built by
`insertBack(5)`, `insertBack(20)`) returns the bytes of 20 and sets `size` to
1, but the list it leaves does not have the front-to-back sequence `[5]`: the
node of 5 is still the head and still live, its `next` still points to the
node of 20, which has been freed, so the walk from `head` along `next` reads a
destroyed node and yields no sequence. -/
theorem popBack_leaves_dangling_next :
    linkedListCreate (some bytesCompare) true = some freshList.2 ∧
    runOps pushFiveTwenty freshList = some fiveTwenty ∧
    WellFormed fiveTwenty.1 fiveTwenty.2 fiveTwentyCells ∧
    frontToBack fiveTwenty.1 fiveTwenty.2 = some [intBytes 5, intBytes 20] ∧
    (linkedListPopBack fiveTwenty.1 (some fiveTwenty.2)).map
      (fun o => (deref o.mem o.ret, o.list.map (fun l => (l.head, l.tail, l.size)),
        o.list.bind (frontToBack o.mem), o.mem.node 0, o.mem.node 1)) =
      some (some (intBytes 20), some (some 0, some 0, 1), none,
        some ⟨some 1, none, some 0⟩, none) :=
  ⟨rfl, rfl, fiveTwenty_wellFormed, rfl, rfl⟩

/-- C2: after `insertBack(5)`, `insertBack(20)`, `popFront()` on a fresh list
the list is non-empty (`size` is 1 and `head` is the node of 20), yet
`head->prev` is not `NULL`: it still holds the address of the node of 5, which
`popFront` has freed. -/
theorem popFront_leaves_dangling_prev :
    linkedListCreate (some bytesCompare) true = some freshList.2 ∧
    (runOps (pushFiveTwenty ++ [.popFront]) freshList).map
      (fun s => (s.2.size, s.2.head, s.2.tail, s.1.node 1, s.1.node 0)) =
      some (1, some 1, some 1, some ⟨none, some 0, some 1⟩, none) :=
  ⟨rfl, rfl⟩

/-- C3: after `insertBack(5)`, `insertBack(20)`, `popBack()` on a fresh list
`size` is 1, but following `next` from `head` does not count one node: the
head node (address 0) is live and its `next` is the address 1 of the node
`popBack` freed, so the walk reaches a destroyed node and never a `NULL`. -/
theorem popBack_breaks_size_invariant :
    linkedListCreate (some bytesCompare) true = some freshList.2 ∧
    (runOps (pushFiveTwenty ++ [.popBack]) freshList).map
      (fun s => (s.2.size, reachableNodes s.1 s.2, s.2.head,
        (s.1.node 0).map (fun n => n.next), s.1.node 1)) =
      some (1, none, some 0, some (some 1), none) :=
  ⟨rfl, rfl⟩

/-- C4: after `insertBack(5)`, `insertBack(20)`, `popBack()`, `popFront()` on a
fresh list `size` is 0 and `tail` is `NULL`, but `head` is not `NULL`: it holds
the address of the node freed by `popBack`. -/
theorem pops_break_empty_invariant :
    linkedListCreate (some bytesCompare) true = some freshList.2 ∧
    (runOps (pushFiveTwenty ++ [.popBack, .popFront]) freshList).map
      (fun s => (s.2.head, s.2.size, s.2.tail, s.1.node 1)) =
      some (some 1, 0, none, none) :=
  ⟨rfl, rfl⟩

/-- C5: in the state reached by `insertBack(5)`, `insertBack(20)`, `popBack()`,
`popFront()` on a fresh list, where `size` is 0, none of `linkedListPopFront`,
`linkedListPopBack` and `linkedListRemoveValue` is a no-op: each reads through
a pointer that is `NULL` or dangling (`head` points to a freed node, `tail` is
`NULL`), which is undefined behaviour. -/
theorem pop_on_emptied_list_faults :
    linkedListCreate (some bytesCompare) true = some freshList.2 ∧
    (runOps (pushFiveTwenty ++ [.popBack, .popFront]) freshList).map
      (fun s => (s.2.size, (linkedListPopFront s.1 (some s.2)).isNone,
        (linkedListPopBack s.1 (some s.2)).isNone,
        (linkedListRemoveValue s.1 (some s.2) (intBytes 5)).isNone)) =
      some (0, true, true, true) :=
  ⟨rfl, rfl⟩

theorem fiveTenTwenty_wellFormed :
    WellFormed fiveTenTwenty.1 fiveTenTwenty.2 fiveTenTwentyCells :=
  ⟨⟨rfl, some 0, rfl, rfl, rfl, some 1, rfl, rfl, rfl, none, rfl, rfl, rfl, rfl⟩,
    by decide, by decide, rfl⟩

/-- C6: on a well-formed list holding the cells `g` (front-to-back values
`g.map Cell.bytes`), if some element compares equal to `value` then
`linkedListRemoveValue` returns 0 and leaves a well-formed list (head, tail and
the neighbours' links repaired) holding `g` without its first matching
element, the other elements in the same order, and `size` is one less; when
`g` had one element the result has `head = tail = NULL` and `size = 0`.  If no
element compares equal it returns -1 and heap and list are unchanged. -/
theorem removeValue_erases_first_match (m : Store) (l : LinkedList) (g : List Cell)
    (value : Bytes) (h : WellFormed m l g) :
    ((∃ x ∈ g, l.compare x.bytes value = 0) →
      ∃ m1 l1, linkedListRemoveValue m (some l) value = some ⟨0, m1, some l1⟩ ∧
        WellFormed m1 l1 (g.eraseP fun c => decide (l.compare c.bytes value = 0)) ∧
        frontToBack m1 l1 =
          some ((g.map Cell.bytes).eraseP fun v => decide (l.compare v value = 0)) ∧
        l1.size = l.size - 1 ∧
        (g.length = 1 → l1.head = none ∧ l1.tail = none ∧ l1.size = 0)) ∧
    ((∀ x ∈ g, l.compare x.bytes value ≠ 0) →
      linkedListRemoveValue m (some l) value = some ⟨-1, m, some l⟩) := by
  refine ⟨?_, removeValue_not_found h value⟩
  rintro ⟨x, hx, hpx⟩
  obtain ⟨c, pre, post, hpre, hc, hg, he⟩ :=
    List.exists_of_eraseP (p := fun c => decide (l.compare c.bytes value = 0)) hx
      (by simpa using hpx)
  subst hg
  obtain ⟨m1, l1, hrun, hwf, hsize, _, _, _⟩ :=
    removeValue_found h value (by simpa using hpre) (by simpa using hc)
  rw [he]
  refine ⟨m1, l1, hrun, hwf, ?_, hsize, ?_⟩
  · have hcomp : ((fun v => decide (l.compare v value = 0)) ∘ Cell.bytes) =
        fun c : Cell => decide (l.compare c.bytes value = 0) := rfl
    rw [hwf.frontToBack_eq, List.eraseP_map, hcomp, he]
  · intro hlen
    have hnil : pre ++ post = [] := by
      apply List.eq_nil_of_length_eq_zero
      rw [List.length_append] at hlen ⊢
      rw [List.length_cons] at hlen
      omega
    rw [hnil] at hwf
    obtain ⟨hh, ht⟩ := hwf.chain
    exact ⟨hh, ht, by simpa using hwf.size⟩

theorem removeValue_erases_first_match_witness :
    WellFormed fiveTenTwenty.1 fiveTenTwenty.2 fiveTenTwentyCells ∧
    ∃ m1 l1, linkedListRemoveValue fiveTenTwenty.1 (some fiveTenTwenty.2) (intBytes 10) =
        some ⟨0, m1, some l1⟩ ∧
      frontToBack m1 l1 = some [intBytes 5, intBytes 20] ∧ l1.size = 2 := by
  obtain ⟨m1, l1, hrun, _, hseq, hsize, _⟩ :=
    (removeValue_erases_first_match fiveTenTwenty.1 fiveTenTwenty.2 fiveTenTwentyCells
      (intBytes 10) fiveTenTwenty_wellFormed).1 ⟨⟨0, 0, intBytes 10⟩, by decide, by decide⟩
  exact ⟨fiveTenTwenty_wellFormed, m1, l1, hrun, hseq, hsize⟩

/-- C7: on a well-formed list holding `g`, `linkedListInsertFront` with both
allocations succeeding returns 0 and leaves a well-formed list whose
front-to-back sequence is the inserted value (the first `size` bytes of
`value`) followed by the old sequence; `linkedListInsertBack` returns 0 and
leaves the old sequence followed by the inserted value; each adds 1 to `size`.
On a fresh list `insertFront(1)`, `insertFront(2)`, `insertBack(3)` gives
`[2, 1, 3]`, and `insertBack(10)`, `insertBack(20)`, `insertFront(5)` gives
`[5, 10, 20]` with `size` 3. -/
theorem insert_extends_sequence (m : Store) (l : LinkedList) (g : List Cell)
    (value : Bytes) (size : Int) (h : WellFormed m l g) (hs0 : 0 ≤ size)
    (hs1 : size ≤ value.length) :
    (∃ m1 l1, linkedListInsertFront m (some l) value size true true =
        some ⟨0, m1, some l1⟩ ∧
      WellFormed m1 l1 (newCell m value size :: g) ∧
      frontToBack m1 l1 = some (value.take size.toNat :: g.map Cell.bytes) ∧
      l1.size = l.size + 1) ∧
    (∃ m1 l1, linkedListInsertBack m (some l) value size true true =
        some ⟨0, m1, some l1⟩ ∧
      WellFormed m1 l1 (g ++ [newCell m value size]) ∧
      frontToBack m1 l1 = some (g.map Cell.bytes ++ [value.take size.toNat]) ∧
      l1.size = l.size + 1) ∧
    (runOps [.insertFront (intBytes 1) 4 true true, .insertFront (intBytes 2) 4 true true,
        .insertBack (intBytes 3) 4 true true] freshList).bind
      (fun s => frontToBack s.1 s.2) = some [intBytes 2, intBytes 1, intBytes 3] ∧
    (runOps [.insertBack (intBytes 10) 4 true true, .insertBack (intBytes 20) 4 true true,
        .insertFront (intBytes 5) 4 true true] freshList).bind
      (fun s => (frontToBack s.1 s.2).map fun vs => (vs, s.2.size)) =
      some ([intBytes 5, intBytes 10, intBytes 20], 3) := by
  refine ⟨?_, ?_, rfl, rfl⟩
  · obtain ⟨m1, l1, hrun, hwf, hsize, _⟩ := insertFront_spec h value size hs0 hs1
    exact ⟨m1, l1, hrun, hwf, by rw [hwf.frontToBack_eq]; rfl, hsize⟩
  · obtain ⟨m1, l1, hrun, hwf, hsize, _⟩ := insertBack_spec h value size hs0 hs1
    exact ⟨m1, l1, hrun, hwf, by rw [hwf.frontToBack_eq, List.map_append]; rfl, hsize⟩

theorem insert_extends_sequence_witness :
    WellFormed fiveTwenty.1 fiveTwenty.2 fiveTwentyCells ∧
    (∃ m1 l1, linkedListInsertFront fiveTwenty.1 (some fiveTwenty.2) (intBytes 7) 4 true true =
        some ⟨0, m1, some l1⟩ ∧
      frontToBack m1 l1 = some [intBytes 7, intBytes 5, intBytes 20] ∧ l1.size = 3) ∧
    (∃ m1 l1, linkedListInsertBack fiveTwenty.1 (some fiveTwenty.2) (intBytes 7) 4 true true =
        some ⟨0, m1, some l1⟩ ∧
      frontToBack m1 l1 = some [intBytes 5, intBytes 20, intBytes 7] ∧ l1.size = 3) := by
  obtain ⟨⟨m1, l1, hrun, _, hseq, hsize⟩, ⟨m2, l2, hrun2, _, hseq2, hsize2⟩, _⟩ :=
    insert_extends_sequence fiveTwenty.1 fiveTwenty.2 fiveTwentyCells (intBytes 7) 4
      fiveTwenty_wellFormed (by decide) (by decide)
  exact ⟨fiveTwenty_wellFormed, ⟨m1, l1, hrun, hseq, hsize⟩, ⟨m2, l2, hrun2, hseq2, hsize2⟩⟩

/-- C8: on a well-formed list, for a value of `size = value.length` bytes, a
`linkedListInsertFront` whose allocations succeed returns 0 and the
`linkedListPopFront` that follows it returns a pointer to bytes equal to
`value`; likewise `linkedListInsertBack` followed by `linkedListPopBack`. -/
theorem insert_pop_roundtrip (m : Store) (l : LinkedList) (g : List Cell)
    (value : Bytes) (h : WellFormed m l g) :
    (∃ o, linkedListInsertFront m (some l) value value.length true true = some o ∧
      o.ret = 0 ∧
      ∃ o2, linkedListPopFront o.mem o.list = some o2 ∧ deref o2.mem o2.ret = some value) ∧
    (∃ o, linkedListInsertBack m (some l) value value.length true true = some o ∧
      o.ret = 0 ∧
      ∃ o2, linkedListPopBack o.mem o.list = some o2 ∧ deref o2.mem o2.ret = some value) := by
  have htake : (newCell m value value.length).bytes = value := by
    simp [newCell]
  constructor
  · obtain ⟨m1, l1, hrun, hwf, _, _⟩ :=
      insertFront_spec h value value.length (by omega) (le_refl _)
    obtain ⟨m2, l2, hpop, hd, _⟩ := popFront_spec hwf
    exact ⟨_, hrun, rfl, _, hpop, by rw [← htake]; exact hd⟩
  · obtain ⟨m1, l1, hrun, hwf, _, _⟩ :=
      insertBack_spec h value value.length (by omega) (le_refl _)
    obtain ⟨m2, l2, hpop, hd, _⟩ := popBack_spec hwf
    exact ⟨_, hrun, rfl, _, hpop, by rw [← htake]; exact hd⟩

theorem insert_pop_roundtrip_witness :
    WellFormed fiveTwenty.1 fiveTwenty.2 fiveTwentyCells ∧
    (∃ o, linkedListInsertFront fiveTwenty.1 (some fiveTwenty.2) (intBytes 7) 4 true true =
        some o ∧ o.ret = 0 ∧
      ∃ o2, linkedListPopFront o.mem o.list = some o2 ∧
        deref o2.mem o2.ret = some (intBytes 7)) ∧
    (∃ o, linkedListInsertBack fiveTwenty.1 (some fiveTwenty.2) (intBytes 7) 4 true true =
        some o ∧ o.ret = 0 ∧
      ∃ o2, linkedListPopBack o.mem o.list = some o2 ∧
        deref o2.mem o2.ret = some (intBytes 7)) :=
  ⟨fiveTwenty_wellFormed,
    insert_pop_roundtrip fiveTwenty.1 fiveTwenty.2 fiveTwentyCells (intBytes 7)
      fiveTwenty_wellFormed⟩

/-- C9: on a well-formed list holding the cells `g`, `linkedListSearch` returns
the address of the first cell, front to back, whose bytes make the list's
comparator return 0 against `value`: if `g = pre ++ c :: post`, no cell of
`pre` compares equal and `c` does, the result is the node of `c`.  It returns
`NULL` exactly when no cell compares equal.  The function only reads the heap:
it hands back a pointer and no new heap or list. -/
theorem search_returns_first_match (m : Store) (l : LinkedList) (g : List Cell)
    (value : Bytes) (h : WellFormed m l g) :
    linkedListSearch m (some l) value =
      some ((g.find? fun c => decide (l.compare c.bytes value = 0)).map Cell.addr) ∧
    (∀ pre c post, g = pre ++ c :: post → (∀ x ∈ pre, l.compare x.bytes value ≠ 0) →
      l.compare c.bytes value = 0 → linkedListSearch m (some l) value = some (some c.addr)) ∧
    (linkedListSearch m (some l) value = some none ↔
      ∀ x ∈ g, l.compare x.bytes value ≠ 0) := by
  have hs := h.search_eq value
  refine ⟨hs, ?_, ?_⟩
  · intro pre c post hg hpre hc
    rw [hs, hg, find_first_match (by simpa using hpre) (by simpa using hc)]
    rfl
  · rw [hs]
    simp only [Option.some.injEq, Option.map_eq_none', List.find?_eq_none]
    constructor
    · intro hno x hx
      simpa using hno x hx
    · intro hno x hx
      simpa using hno x hx

theorem search_returns_first_match_witness :
    WellFormed fiveTenTwenty.1 fiveTenTwenty.2 fiveTenTwentyCells ∧
    linkedListSearch fiveTenTwenty.1 (some fiveTenTwenty.2) (intBytes 10) = some (some 0) ∧
    linkedListSearch fiveTenTwenty.1 (some fiveTenTwenty.2) (intBytes 7) = some none :=
  ⟨fiveTenTwenty_wellFormed,
    (search_returns_first_match fiveTenTwenty.1 fiveTenTwenty.2 fiveTenTwentyCells
      (intBytes 10) fiveTenTwenty_wellFormed).1,
    (search_returns_first_match fiveTenTwenty.1 fiveTenTwenty.2 fiveTenTwentyCells
      (intBytes 7) fiveTenTwenty_wellFormed).1⟩

/-! ## The claims on the array list -/

theorem reallocDoubled_some {array buf : List Int} {arraySize : Int}
    {check : Option (List Int)} (h : reallocDoubled array arraySize check = some buf) :
    ¬ INT_MAX < arraySize * 2 ∧ ∃ junk, check = some junk ∧
      buf = (array ++ uninitialised (arraySize * 2).toNat junk).take (arraySize * 2).toNat := by
  unfold reallocDoubled at h
  by_cases hov : INT_MAX < arraySize * 2
  · simp [hov] at h
  · rw [if_neg hov] at h
    cases check with
    | none => simp [realloc] at h
    | some junk =>
      refine ⟨hov, junk, rfl, ?_⟩
      simpa [realloc] using h.symm

theorem reallocDoubled_none_iff (array : List Int) (arraySize : Int)
    (check : Option (List Int)) :
    reallocDoubled array arraySize check = none ↔ INT_MAX < arraySize * 2 ∨ check = none := by
  unfold reallocDoubled
  by_cases hov : INT_MAX < arraySize * 2
  · simp [hov]
  · cases check <;> simp [hov, realloc]

theorem take_set_succ (xs : List Int) (n : Nat) (v : Int) (h : n < xs.length) :
    (xs.set n v).take (n + 1) = xs.take n ++ [v] := by
  induction xs generalizing n with
  | nil => simp at h
  | cons x xs ih =>
    cases n with
    | zero => simp
    | succ k =>
      have hk : k < xs.length := by simpa using h
      simp [ih k hk]

/-- C10: on an array with `listSize < arraySize` whose block has `arraySize`
slots, `arrayListInsert`, given that the reallocation succeeds when it is
needed (the `realloc` call of the insert that fills the array does not return
`NULL`), returns 0, writes `value` into slot `listSize` and leaves the slots
below it as they were (the contents become the old contents followed by
`value`), adds 1 to `listSize`, and doubles `arraySize` exactly when the new
`listSize` equals the old `arraySize`, leaving it unchanged otherwise; the
array it leaves is not full.  (At a capacity of `2^30` or more the needed
reallocation never succeeds, the doubled size being no `int`: that insert is
the one of C11.) -/
theorem arrayListInsert_appends (a : ArrayList) (value : Int) (check : Option (List Int))
    (hv : a.Valid) (hlt : a.listSize < a.arraySize)
    (hre : a.listSize + 1 = a.arraySize →
      reallocDoubled (a.array.set a.listSize.toNat value) a.arraySize check ≠ none) :
    ∃ a1, arrayListInsert (some a) value check = some (0, some a1) ∧
      a1.contents = a.contents ++ [value] ∧
      a1.array[a.listSize.toNat]? = some value ∧
      (∀ i : Nat, (i : Int) < a.listSize → a1.array[i]? = a.array[i]?) ∧
      a1.listSize = a.listSize + 1 ∧
      a1.arraySize = (if a.listSize + 1 = a.arraySize then a.arraySize * 2 else a.arraySize) ∧
      (a1.arraySize = a.arraySize * 2 ↔ a.listSize + 1 = a.arraySize) ∧
      a1.listSize < a1.arraySize ∧ a1.Valid := by
  obtain ⟨hblock, hnonneg, hbound⟩ := hv
  have hne : a.listSize ≠ a.arraySize := ne_of_lt hlt
  have hin : ¬ (a.listSize < 0 ∨ (a.array.length : Int) ≤ a.listSize) := by omega
  have hn : a.listSize.toNat < a.array.length := by omega
  have hsucc : (a.listSize + 1).toNat = a.listSize.toNat + 1 := by omega
  by_cases hfull : a.listSize + 1 = a.arraySize
  · obtain ⟨buf, hg⟩ := Option.ne_none_iff_exists'.mp (hre hfull)
    obtain ⟨_, junk, _, hbuf⟩ := reallocDoubled_some hg
    subst hbuf
    have hcap : (a.arraySize * 2).toNat = 2 * a.array.length := by omega
    have hulen : (uninitialised (2 * a.array.length) junk).length = 2 * a.array.length := by
      simp [uninitialised]
    refine ⟨⟨((a.array.set a.listSize.toNat value) ++
        uninitialised (a.arraySize * 2).toNat junk).take (a.arraySize * 2).toNat,
        a.arraySize * 2, a.listSize + 1⟩, ?_, ?_, ?_, ?_, rfl, ?_, ?_, ?_, ?_⟩
    · simp [arrayListInsert, hne, hin, hfull, hg]
    · simp only [ArrayList.contents, hsucc, hcap, List.take_take]
      rw [min_eq_left (by omega), List.take_append_of_le_length (by simp; omega)]
      exact take_set_succ _ _ _ hn
    · simp only [hcap]
      rw [List.getElem?_take_of_lt (by omega), List.getElem?_append_left (by simpa using hn),
        List.getElem?_set_self hn]
    · intro i hi
      have hi2 : i < a.listSize.toNat := by omega
      simp only [hcap]
      rw [List.getElem?_take_of_lt (by omega),
        List.getElem?_append_left (by simp; omega),
        List.getElem?_set_ne (by omega)]
    · simp [hfull]
    · simp [hfull]
    · show a.listSize + 1 < a.arraySize * 2
      omega
    · refine ⟨?_, ?_, ?_⟩
      · show ((((a.array.set a.listSize.toNat value) ++
          uninitialised (a.arraySize * 2).toNat junk).take (a.arraySize * 2).toNat).length : Int)
          = a.arraySize * 2
        rw [hcap, List.length_take, List.length_append, List.length_set, hulen]
        omega
      · show 0 ≤ a.listSize + 1
        omega
      · show a.listSize + 1 ≤ a.arraySize * 2
        omega
  · refine ⟨⟨a.array.set a.listSize.toNat value, a.arraySize, a.listSize + 1⟩,
      ?_, ?_, ?_, ?_, rfl, ?_, ?_, ?_, ?_⟩
    · simp [arrayListInsert, hne, hin, hfull]
    · simp only [ArrayList.contents, hsucc]
      exact take_set_succ _ _ _ hn
    · exact List.getElem?_set_self hn
    · intro i hi
      exact List.getElem?_set_ne (by omega)
    · simp [hfull]
    · simp only [hfull, iff_false]
      omega
    · show a.listSize + 1 < a.arraySize
      omega
    · refine ⟨?_, ?_, ?_⟩
      · show ((a.array.set a.listSize.toNat value).length : Int) = a.arraySize
        rw [List.length_set]; exact hblock
      · show 0 ≤ a.listSize + 1
        omega
      · show a.listSize + 1 ≤ a.arraySize
        omega

theorem arrayListInsert_appends_witness :
    (⟨[1, 2, 3, 0], 4, 3⟩ : ArrayList).Valid ∧
    ∃ a1, arrayListInsert (some ⟨[1, 2, 3, 0], 4, 3⟩) 9 (some []) = some (0, some a1) ∧
      a1.contents = [1, 2, 3, 9] ∧ a1.listSize = 4 ∧ a1.arraySize = 8 := by
  have hv : (⟨[1, 2, 3, 0], 4, 3⟩ : ArrayList).Valid := ⟨by decide, by decide, by decide⟩
  obtain ⟨a1, hrun, hc, _, _, hl, hs, _⟩ :=
    arrayListInsert_appends ⟨[1, 2, 3, 0], 4, 3⟩ 9 (some []) hv (by decide)
      (fun _ => by decide)
  exact ⟨hv, a1, hrun, hc, hl, hs⟩

/-- C11, as stated, fails: on the array `[1, 2, 3]` of capacity 4 the insert
of 9 fills the array, and when the reallocation that would double the capacity
fails the call stores 9 in slot 3, sets `listSize` to 4 and leaves `arraySize`
at 4, but it returns -1, not 0: the guard on the result of `realloc` reports
the failed allocation. -/
theorem insert_reports_failure_when_growth_fails :
    arrayListInsert (some ⟨[1, 2, 3, 0], 4, 3⟩) 9 none =
      some (-1, some ⟨[1, 2, 3, 9], 4, 4⟩) :=
  rfl

/-- C11, amended: when an `arrayListInsert` on a valid array makes `listSize`
equal `arraySize` and the `realloc` call that would double the capacity
returns `NULL`, the call returns -1, and yet the value is stored in slot old
`listSize`, the slots below it are as they were (the contents become the old
contents followed by `value`), `listSize` is incremented, and the array is
left exactly full: `listSize = arraySize`, `arraySize` unchanged. -/
theorem insert_stores_when_growth_fails (a : ArrayList) (value : Int)
    (check : Option (List Int)) (hv : a.Valid) (hfill : a.listSize + 1 = a.arraySize)
    (hfail : reallocDoubled (a.array.set a.listSize.toNat value) a.arraySize check = none) :
    ∃ a1, arrayListInsert (some a) value check = some (-1, some a1) ∧
      a1.array[a.listSize.toNat]? = some value ∧
      (∀ i : Nat, (i : Int) < a.listSize → a1.array[i]? = a.array[i]?) ∧
      a1.contents = a.contents ++ [value] ∧
      a1.listSize = a.listSize + 1 ∧
      a1.listSize = a1.arraySize ∧
      a1.arraySize = a.arraySize := by
  obtain ⟨hblock, hnonneg, hbound⟩ := hv
  have hne : a.listSize ≠ a.arraySize := by omega
  have hin : ¬ (a.listSize < 0 ∨ (a.array.length : Int) ≤ a.listSize) := by omega
  have hn : a.listSize.toNat < a.array.length := by omega
  have hsucc : (a.listSize + 1).toNat = a.listSize.toNat + 1 := by omega
  refine ⟨⟨a.array.set a.listSize.toNat value, a.arraySize, a.listSize + 1⟩,
    ?_, ?_, ?_, ?_, rfl, hfill, rfl⟩
  · simp [arrayListInsert, hne, hin, hfill, hfail]
  · exact List.getElem?_set_self hn
  · intro i hi
    exact List.getElem?_set_ne (by omega)
  · simp only [ArrayList.contents, hsucc]
    exact take_set_succ _ _ _ hn

theorem insert_stores_when_growth_fails_witness :
    (⟨[1, 2, 3, 0], 4, 3⟩ : ArrayList).Valid ∧
    reallocDoubled [1, 2, 3, 9] 4 none = none ∧
    ∃ a1, arrayListInsert (some ⟨[1, 2, 3, 0], 4, 3⟩) 9 none = some (-1, some a1) ∧
      a1.array[3]? = some 9 ∧ a1.contents = [1, 2, 3, 9] ∧ a1.listSize = 4 ∧
      a1.arraySize = 4 := by
  have hv : (⟨[1, 2, 3, 0], 4, 3⟩ : ArrayList).Valid := ⟨by decide, by decide, by decide⟩
  obtain ⟨a1, hrun, hget, _, hc, hl, _, hs⟩ :=
    insert_stores_when_growth_fails ⟨[1, 2, 3, 0], 4, 3⟩ 9 none hv rfl rfl
  exact ⟨hv, rfl, a1, hrun, hget, hc, hl, hs⟩

/-- C12, as stated, fails: on a freshly created array the inserts of 1, 2, 3,
4, the growth reallocation of the fourth failing, return 0, 0, 0, -1, so three
calls return 0, yet the final `listSize` is 4 and the contents are
`[1, 2, 3, 4]`. -/
theorem length_exceeds_successful_inserts :
    arrayListCreate true (some []) = some freshArray ∧
    (runArrayOps [.insert 1 none, .insert 2 none, .insert 3 none, .insert 4 none]
        freshArray).map
      (fun r => (r.1, (r.1.filter fun c => c = 0).length, r.2.listSize, r.2.contents)) =
      some ([0, 0, 0, -1], 3, 4, [1, 2, 3, 4]) :=
  ⟨rfl, rfl⟩

/-- C13: on an array with `listSize = arraySize`, `arrayListInsert` returns -1
and leaves the block, `listSize` and `arraySize` as they were, whatever the
outcome `check` a reallocation would have: it does not reach the `realloc`.
In particular, after an insert that fills a valid array and whose growth
reallocation fails, the next insert is rejected in this way. -/
theorem insert_on_full_array_rejected (a : ArrayList) (value : Int)
    (check : Option (List Int)) (hfull : a.listSize = a.arraySize) :
    arrayListInsert (some a) value check = some (-1, some a) ∧
    (∀ (b : ArrayList) (v : Int), b.Valid → b.listSize + 1 = b.arraySize →
      ∃ r b1, arrayListInsert (some b) v none = some (r, some b1) ∧
        b1.listSize = b1.arraySize ∧
        arrayListInsert (some b1) value check = some (-1, some b1)) := by
  constructor
  · simp [arrayListInsert, hfull]
  · intro b v hv hb
    obtain ⟨hblock, hnonneg, hbound⟩ := hv
    have hne : b.listSize ≠ b.arraySize := by omega
    have hin : ¬ (b.listSize < 0 ∨ (b.array.length : Int) ≤ b.listSize) := by omega
    refine ⟨-1, ⟨b.array.set b.listSize.toNat v, b.arraySize, b.listSize + 1⟩, ?_, hb, ?_⟩
    · simp [arrayListInsert, hne, hin, hb, reallocDoubled, realloc]
    · simp [arrayListInsert, hb]

theorem insert_on_full_array_rejected_witness :
    (⟨[1, 2, 3, 4], 4, 4⟩ : ArrayList).listSize = (⟨[1, 2, 3, 4], 4, 4⟩ : ArrayList).arraySize ∧
    arrayListInsert (some ⟨[1, 2, 3, 4], 4, 4⟩) 5 (some []) =
      some (-1, some ⟨[1, 2, 3, 4], 4, 4⟩) ∧
    (∃ r b1, arrayListInsert (some ⟨[1, 2, 3, 0], 4, 3⟩) 9 none = some (r, some b1) ∧
      b1.listSize = b1.arraySize ∧
      arrayListInsert (some b1) 5 (some []) = some (-1, some b1)) :=
  ⟨rfl, (insert_on_full_array_rejected ⟨[1, 2, 3, 4], 4, 4⟩ 5 (some []) rfl).1,
    (insert_on_full_array_rejected ⟨[1, 2, 3, 4], 4, 4⟩ 5 (some []) rfl).2
      ⟨[1, 2, 3, 0], 4, 3⟩ 9 ⟨by decide, by decide, by decide⟩ (by decide)⟩

/-! ### Searching an array -/

theorem ArrayList.contents_length {a : ArrayList} (hle : a.listSize.toNat ≤ a.array.length) :
    a.contents.length = a.listSize.toNat := by
  simp [ArrayList.contents, hle]

theorem ArrayList.Valid.toNat_le {a : ArrayList} (hv : a.Valid) :
    a.listSize.toNat ≤ a.array.length := by
  obtain ⟨hblock, hnonneg, hbound⟩ := hv
  omega

theorem ArrayList.getElem?_contents {a : ArrayList} {i : Nat} (hi : i < a.listSize.toNat) :
    a.array[i]? = a.contents[i]? := by
  unfold ArrayList.contents
  rw [List.getElem?_take_of_lt hi]

theorem searchLoop_found (a : ArrayList) (value : Int) (pre post : List Int)
    (hc : a.contents = pre ++ value :: post) (hpre : value ∉ pre)
    (hnonneg : 0 ≤ a.listSize) (hle : a.listSize.toNat ≤ a.array.length) :
    ∀ (k ii fuel : Nat), ii + k = pre.length → fuel + ii = a.listSize.toNat →
      arrayListSearchLoop a value fuel ii = some (pre.length : Int) := by
  have hlen := ArrayList.contents_length hle
  rw [hc] at hlen
  simp only [List.length_append, List.length_cons] at hlen
  intro k
  induction k with
  | zero =>
    intro ii fuel hii hfuel
    have hlt : (ii : Int) < a.listSize := by omega
    have hget : a.array[ii]? = some value := by
      rw [ArrayList.getElem?_contents (by omega), hc,
        List.getElem?_append_right (by omega)]
      have : ii - pre.length = 0 := by omega
      simp [this]
    cases fuel with
    | zero => omega
    | succ f =>
      have hii2 : ii = pre.length := by omega
      subst hii2
      simp [arrayListSearchLoop, hlt, hget]
  | succ k ih =>
    intro ii fuel hii hfuel
    have hlt : (ii : Int) < a.listSize := by omega
    have hiilt : ii < pre.length := by omega
    have hget : a.array[ii]? = some pre[ii] := by
      rw [ArrayList.getElem?_contents (by omega), hc,
        List.getElem?_append_left hiilt, List.getElem?_eq_getElem hiilt]
    have hne : pre[ii] ≠ value := fun e => hpre (e ▸ List.getElem_mem hiilt)
    cases fuel with
    | zero => omega
    | succ f =>
      simp only [arrayListSearchLoop, hlt, hget, if_true, if_neg hne]
      exact ih (ii + 1) f (by omega) (by omega)

theorem searchLoop_not_found (a : ArrayList) (value : Int) (hno : value ∉ a.contents)
    (hnonneg : 0 ≤ a.listSize) (hle : a.listSize.toNat ≤ a.array.length) :
    ∀ (fuel ii : Nat), fuel + ii = a.listSize.toNat →
      arrayListSearchLoop a value fuel ii = some (-1) := by
  have hlen := ArrayList.contents_length hle
  intro fuel
  induction fuel with
  | zero =>
    intro ii hfuel
    have hlt : ¬ (ii : Int) < a.listSize := by omega
    simp [arrayListSearchLoop, hlt]
  | succ f ih =>
    intro ii hfuel
    have hlt : (ii : Int) < a.listSize := by omega
    have hiilt : ii < a.contents.length := by omega
    have hget : a.array[ii]? = some a.contents[ii] := by
      rw [ArrayList.getElem?_contents (by omega), List.getElem?_eq_getElem hiilt]
    have hne : a.contents[ii] ≠ value := fun e => hno (e ▸ List.getElem_mem hiilt)
    simp only [arrayListSearchLoop, hlt, hget, if_true, if_neg hne]
    exact ih (ii + 1) (by omega)

theorem arrayListSearch_found {a : ArrayList} {value : Int} {pre post : List Int}
    (hv : a.Valid) (hc : a.contents = pre ++ value :: post) (hpre : value ∉ pre) :
    arrayListSearch (some a) value = some (pre.length : Int) :=
  searchLoop_found a value pre post hc hpre hv.nonneg hv.toNat_le pre.length 0
    a.listSize.toNat (by simp) (by simp)

theorem arrayListSearch_not_found {a : ArrayList} {value : Int}
    (hv : a.Valid) (hno : value ∉ a.contents) :
    arrayListSearch (some a) value = some (-1) :=
  searchLoop_not_found a value hno hv.nonneg hv.toNat_le a.listSize.toNat 0 (by simp)

theorem indexOf_first_occurrence (pre post : List Int) (value : Int) (hpre : value ∉ pre) :
    (pre ++ value :: post).indexOf value = pre.length := by
  induction pre with
  | nil => simp
  | cons x xs ih =>
    have hx : x ≠ value := fun e => hpre (by simp [e])
    have hxs : value ∉ xs := fun h => hpre (List.mem_cons_of_mem _ h)
    simp [List.indexOf_cons, hx, ih hxs]

theorem arrayListSearch_eq_of_contents {a : ArrayList} (value : Int)
    (hnonneg : 0 ≤ a.listSize) (hle : a.listSize.toNat ≤ a.array.length) :
    arrayListSearch (some a) value =
      if value ∈ a.contents then some ((a.contents.indexOf value : Nat) : Int) else some (-1) := by
  by_cases hmem : value ∈ a.contents
  · obtain ⟨pre, post, hpre, hc, _⟩ := List.exists_erase_eq hmem
    have hidx : a.contents.indexOf value = pre.length := by
      rw [hc]; exact indexOf_first_occurrence pre post value hpre
    rw [if_pos hmem, hidx]
    exact searchLoop_found a value pre post hc hpre hnonneg hle pre.length 0
      a.listSize.toNat (by simp) (by simp)
  · rw [if_neg hmem]
    exact searchLoop_not_found a value hmem hnonneg hle a.listSize.toNat 0 (by simp)

/-- C15: on a valid array, if `value` occurs in slots `0` to `listSize - 1`,
`arrayListSearch` returns the smallest index `i` of that range with
`array[i] == value`; it returns -1 exactly when `value` occurs in none of
these slots.  The result is the same for every array with the same `listSize`
and the same first `listSize` slots, so the slots at or beyond `listSize` have
no part in it.  The function returns an index only: it writes nothing. -/
theorem search_returns_smallest_index (a : ArrayList) (value : Int) (hv : a.Valid) :
    (value ∈ a.contents →
      ∃ i : Nat, arrayListSearch (some a) value = some (i : Int) ∧ (i : Int) < a.listSize ∧
        a.array[i]? = some value ∧ ∀ j, j < i → a.array[j]? ≠ some value) ∧
    (arrayListSearch (some a) value = some (-1) ↔ value ∉ a.contents) ∧
    (∀ b : ArrayList, b.listSize = a.listSize → b.contents = a.contents →
      arrayListSearch (some b) value = arrayListSearch (some a) value) := by
  have hle := hv.toNat_le
  have hnonneg := hv.nonneg
  have hlen := ArrayList.contents_length hle
  have hfound : value ∈ a.contents →
      ∃ i : Nat, arrayListSearch (some a) value = some (i : Int) ∧ (i : Int) < a.listSize ∧
        a.array[i]? = some value ∧ ∀ j, j < i → a.array[j]? ≠ some value := by
    intro hmem
    obtain ⟨pre, post, hpre, hc, _⟩ := List.exists_erase_eq hmem
    have hl : pre.length + (post.length + 1) = a.listSize.toNat := by
      rw [← hlen, hc]; simp
    refine ⟨pre.length, arrayListSearch_found hv hc hpre, by omega, ?_, ?_⟩
    · rw [ArrayList.getElem?_contents (by omega), hc, List.getElem?_append_right (le_refl _)]
      simp
    · intro j hj
      rw [ArrayList.getElem?_contents (by omega), hc, List.getElem?_append_left hj,
        List.getElem?_eq_getElem hj]
      intro e
      exact hpre ((Option.some.inj e) ▸ List.getElem_mem hj)
  refine ⟨hfound, ?_, ?_⟩
  · constructor
    · intro hs hmem
      obtain ⟨i, hi, _⟩ := hfound hmem
      rw [hi] at hs
      have := Option.some.inj hs
      omega
    · exact arrayListSearch_not_found hv
  · intro b hbs hbc
    have hbnonneg : 0 ≤ b.listSize := hbs ▸ hnonneg
    have hble : b.listSize.toNat ≤ b.array.length := by
      have h1 : b.contents.length = a.listSize.toNat := by rw [hbc, hlen]
      simp only [ArrayList.contents, List.length_take, hbs] at h1
      omega
    rw [arrayListSearch_eq_of_contents value hbnonneg hble,
      arrayListSearch_eq_of_contents value hnonneg hle, hbc]

theorem search_returns_smallest_index_witness :
    (⟨[3, 7, 7, 9], 4, 3⟩ : ArrayList).Valid ∧
    arrayListSearch (some ⟨[3, 7, 7, 9], 4, 3⟩) 7 = some 1 ∧
    arrayListSearch (some ⟨[3, 7, 7, 9], 4, 3⟩) 9 = some (-1) := by
  have hv : (⟨[3, 7, 7, 9], 4, 3⟩ : ArrayList).Valid := ⟨by decide, by decide, by decide⟩
  have h := search_returns_smallest_index ⟨[3, 7, 7, 9], 4, 3⟩ 9 hv
  exact ⟨hv, rfl, h.2.1.mpr (by decide)⟩

/-! ### Removing from an array -/

theorem set_append_head (pre t : List Int) (x y : Int) :
    (pre ++ x :: t).set pre.length y = pre ++ y :: t := by
  induction pre with
  | nil => simp
  | cons p ps ih => simp [ih]

theorem getElem?_append_second (pre t : List Int) (x y : Int) :
    (pre ++ x :: y :: t)[pre.length + 1]? = some y := by
  induction pre with
  | nil => simp
  | cons p ps ih => simpa using ih

theorem shiftLoop_spec :
    ∀ (post pre : List Int) (x : Int) (rest : List Int) (fuel : Nat), post.length ≤ fuel →
      arrayListShiftLoop ((pre.length + 1 + post.length : Nat) : Int) fuel pre.length
          (pre ++ x :: (post ++ rest)) =
        some (pre ++ (post ++ post.getLastD x :: rest))
  | [], pre, x, rest, fuel, _ => by
    have hlt : ¬ ((pre.length : Nat) : Int) < ((pre.length + 1 + 0 : Nat) : Int) - 1 := by
      push_cast; omega
    cases fuel <;> simp [arrayListShiftLoop, hlt]
  | y :: ys, pre, x, rest, 0, hf => by simp at hf
  | y :: ys, pre, x, rest, f + 1, hf => by
    have hlt : ((pre.length : Nat) : Int) <
        ((pre.length + 1 + (y :: ys).length : Nat) : Int) - 1 := by
      simp only [List.length_cons]; push_cast; omega
    have hget : (pre ++ x :: (y :: ys ++ rest))[pre.length + 1]? = some y :=
      getElem?_append_second pre (ys ++ rest) x y
    have hset : (pre ++ x :: (y :: ys ++ rest)).set pre.length y =
        (pre ++ [y]) ++ y :: (ys ++ rest) := by
      rw [set_append_head]; simp
    have hsz : ((pre.length + 1 + (y :: ys).length : Nat) : Int) =
        (((pre ++ [y]).length + 1 + ys.length : Nat) : Int) := by
      simp only [List.length_cons, List.length_append, List.length_nil]; push_cast; omega
    have hii : pre.length + 1 = (pre ++ [y]).length := by simp
    have ih := shiftLoop_spec ys (pre ++ [y]) y rest f (by simpa using hf)
    simp only [arrayListShiftLoop, hlt, if_true, hget, hset]
    rw [hsz, hii, ih, List.getLastD_cons]
    simp

theorem arrayListRemove_found {a : ArrayList} {value : Int} {pre post : List Int}
    (hv : a.Valid) (hc : a.contents = pre ++ value :: post) (hpre : value ∉ pre) :
    ∃ a1, arrayListRemove (some a) value = some (0, some a1) ∧
      a1.contents = pre ++ post ∧ a1.listSize = a.listSize - 1 ∧
      a1.arraySize = a.arraySize ∧ a1.Valid := by
  have hle := hv.toNat_le
  obtain ⟨hblock, hnonneg, hbound⟩ := hv
  have hlen := ArrayList.contents_length hle
  have hl : pre.length + (post.length + 1) = a.listSize.toNat := by
    rw [← hlen, hc]; simp
  have harr : a.array = pre ++ value :: (post ++ a.array.drop a.listSize.toNat) := by
    have := (List.take_append_drop a.listSize.toNat a.array).symm
    rw [show a.array.take a.listSize.toNat = a.contents from rfl, hc] at this
    simpa using this
  have hsz : a.listSize = ((pre.length + 1 + post.length : Nat) : Int) := by
    push_cast; omega
  have hsearch : arrayListSearch (some a) value = some (pre.length : Int) :=
    arrayListSearch_found ⟨hblock, hnonneg, hbound⟩ hc hpre
  have hshift : arrayListShiftLoop a.listSize a.listSize.toNat pre.length a.array =
      some (pre ++ (post ++ post.getLastD value :: a.array.drop a.listSize.toNat)) := by
    have := shiftLoop_spec post pre value (a.array.drop a.listSize.toNat) a.listSize.toNat
      (by omega)
    rw [← hsz, ← harr] at this
    exact this
  have hnot : ¬ ((pre.length : Nat) : Int) < 0 := by omega
  refine ⟨⟨pre ++ (post ++ post.getLastD value :: a.array.drop a.listSize.toNat),
    a.arraySize, a.listSize - 1⟩, ?_, ?_, rfl, rfl, ?_⟩
  · simp only [arrayListRemove, hsearch, Option.bind_eq_bind, Option.some_bind, hnot,
      if_false, Int.toNat_ofNat, hshift, Option.pure_def]
  · have h1 : (a.listSize - 1).toNat = (pre ++ post).length := by
      simp only [List.length_append]; omega
    simp only [ArrayList.contents, h1]
    rw [← List.append_assoc, List.take_append_of_le_length (le_refl _), List.take_length]
  · refine ⟨?_, ?_, ?_⟩
    · show ((pre ++ (post ++ post.getLastD value ::
          a.array.drop a.listSize.toNat)).length : Int) = a.arraySize
      rw [← hblock]
      have h2 : (a.array.drop a.listSize.toNat).length = a.array.length - a.listSize.toNat := by
        simp
      simp only [List.length_append, List.length_cons, h2]
      omega
    · show 0 ≤ a.listSize - 1
      omega
    · show a.listSize - 1 ≤ a.arraySize
      omega

theorem arrayListRemove_not_found {a : ArrayList} {value : Int}
    (hv : a.Valid) (hno : value ∉ a.contents) :
    arrayListRemove (some a) value = some (-1, some a) := by
  simp [arrayListRemove, arrayListSearch_not_found hv hno]

/-- C14: on a valid array with contents `a.contents`, if `value` occurs then
`arrayListRemove` returns 0 and the contents become the old contents with the
first occurrence of `value` erased: writing the old contents as
`pre ++ value :: post` with `value` not in `pre`, the new contents are
`pre ++ post`, so the slots before the first occurrence keep their elements
and every later element moves down by one index; `listSize` drops by 1 and
`arraySize` is unchanged.  If `value` does not occur the call returns -1 and
the array is unchanged.  After the inserts of 1 to 7 into a fresh array,
`remove(4)` gives `[1, 2, 3, 5, 6, 7]` with `listSize` 6 and `arraySize` 8. -/
theorem remove_erases_first_occurrence (a : ArrayList) (value : Int) (hv : a.Valid) :
    (value ∈ a.contents →
      ∃ a1, arrayListRemove (some a) value = some (0, some a1) ∧
        a1.contents = a.contents.erase value ∧
        (∀ pre post, a.contents = pre ++ value :: post → value ∉ pre →
          a1.contents = pre ++ post ∧
          (∀ j, j < pre.length → a1.array[j]? = a.array[j]?) ∧
          (∀ j, pre.length ≤ j → (j : Int) < a.listSize - 1 →
            a1.array[j]? = a.array[j + 1]?)) ∧
        a1.listSize = a.listSize - 1 ∧ a1.arraySize = a.arraySize) ∧
    (value ∉ a.contents → arrayListRemove (some a) value = some (-1, some a)) ∧
    (runArrayOps [.insert 1 (some []), .insert 2 (some []), .insert 3 (some []),
        .insert 4 (some []), .insert 5 (some []), .insert 6 (some []), .insert 7 (some []),
        .remove 4] freshArray).map
      (fun r => (r.2.contents, r.2.listSize, r.2.arraySize)) =
      some ([1, 2, 3, 5, 6, 7], 6, 8) := by
  refine ⟨?_, arrayListRemove_not_found hv, rfl⟩
  intro hmem
  obtain ⟨pre0, post0, hpre0, hc0, he0⟩ := List.exists_erase_eq hmem
  obtain ⟨a1, hrun, hcont, hsize, hcap, _⟩ := arrayListRemove_found hv hc0 hpre0
  refine ⟨a1, hrun, by rw [hcont, he0], ?_, hsize, hcap⟩
  intro pre post hc hpre
  have hlen := ArrayList.contents_length hv.toNat_le
  have hl : pre.length + (post.length + 1) = a.listSize.toNat := by
    rw [← hlen, hc]; simp
  have hnonneg := hv.nonneg
  have hcont1 : a1.contents = pre ++ post := by
    rw [hcont, ← he0, hc, List.erase_append_right _ hpre, List.erase_cons_head]
  refine ⟨hcont1, ?_, ?_⟩
  · intro j hj
    rw [ArrayList.getElem?_contents (a := a1) (by omega), hcont1,
      ArrayList.getElem?_contents (a := a) (by omega), hc,
      List.getElem?_append_left hj, List.getElem?_append_left hj]
  · intro j hj hjl
    rw [ArrayList.getElem?_contents (a := a1) (by omega), hcont1,
      ArrayList.getElem?_contents (a := a) (by omega), hc,
      List.getElem?_append_right hj, List.getElem?_append_right (by omega)]
    have : j + 1 - pre.length = (j - pre.length) + 1 := by omega
    rw [this, List.getElem?_cons_succ]

theorem remove_erases_first_occurrence_witness :
    (⟨[4, 8, 4, 0], 4, 3⟩ : ArrayList).Valid ∧
    (∃ a1, arrayListRemove (some ⟨[4, 8, 4, 0], 4, 3⟩) 4 = some (0, some a1) ∧
      a1.contents = [8, 4] ∧ a1.listSize = 2 ∧ a1.arraySize = 4) ∧
    arrayListRemove (some ⟨[4, 8, 4, 0], 4, 3⟩) 5 = some (-1, some ⟨[4, 8, 4, 0], 4, 3⟩) := by
  have hv : (⟨[4, 8, 4, 0], 4, 3⟩ : ArrayList).Valid := ⟨by decide, by decide, by decide⟩
  obtain ⟨a1, hrun, hc, _, hs, hcap⟩ :=
    (remove_erases_first_occurrence ⟨[4, 8, 4, 0], 4, 3⟩ 4 hv).1 (by decide)
  exact ⟨hv, ⟨a1, hrun, hc, hs, hcap⟩,
    (remove_erases_first_occurrence ⟨[4, 8, 4, 0], 4, 3⟩ 5 hv).2.1 (by decide)⟩

/-! ### Insert or remove, then search -/

theorem arrayListInsert_cases (a : ArrayList) (value : Int) (check : Option (List Int))
    (hv : a.Valid) (hlt : a.listSize < a.arraySize) :
    ∃ r a1, arrayListInsert (some a) value check = some (r, some a1) ∧
      a1.contents = a.contents ++ [value] ∧ a1.listSize = a.listSize + 1 ∧ a1.Valid ∧
      (r = 0 ∨ r = -1) ∧
      (r = -1 ↔ (a.listSize + 1 = a.arraySize ∧
        reallocDoubled (a.array.set a.listSize.toNat value) a.arraySize check = none)) ∧
      a1.arraySize =
        (if a.listSize + 1 = a.arraySize ∧
            reallocDoubled (a.array.set a.listSize.toNat value) a.arraySize check ≠ none
         then a.arraySize * 2 else a.arraySize) := by
  obtain ⟨hblock, hnonneg, hbound⟩ := hv
  have hne : a.listSize ≠ a.arraySize := ne_of_lt hlt
  have hin : ¬ (a.listSize < 0 ∨ (a.array.length : Int) ≤ a.listSize) := by omega
  have hn : a.listSize.toNat < a.array.length := by omega
  have hsucc : (a.listSize + 1).toNat = a.listSize.toNat + 1 := by omega
  have hvalid1 : (⟨a.array.set a.listSize.toNat value, a.arraySize, a.listSize + 1⟩ :
      ArrayList).Valid := by
    refine ⟨?_, ?_, ?_⟩
    · show ((a.array.set a.listSize.toNat value).length : Int) = a.arraySize
      rw [List.length_set]; exact hblock
    · show 0 ≤ a.listSize + 1
      omega
    · show a.listSize + 1 ≤ a.arraySize
      omega
  have hcont1 : (⟨a.array.set a.listSize.toNat value, a.arraySize, a.listSize + 1⟩ :
      ArrayList).contents = a.contents ++ [value] := by
    simp only [ArrayList.contents, hsucc]
    exact take_set_succ _ _ _ hn
  by_cases hfull : a.listSize + 1 = a.arraySize
  · cases hg : reallocDoubled (a.array.set a.listSize.toNat value) a.arraySize check with
    | none =>
      refine ⟨-1, ⟨a.array.set a.listSize.toNat value, a.arraySize, a.listSize + 1⟩,
        ?_, hcont1, rfl, hvalid1, Or.inr rfl, by simp [hfull], by simp⟩
      simp [arrayListInsert, hne, hin, hfull, hg]
    | some buf =>
      obtain ⟨hov, junk, _, hbuf⟩ := reallocDoubled_some hg
      subst hbuf
      have hcap : (a.arraySize * 2).toNat = 2 * a.array.length := by omega
      have hulen : (uninitialised (2 * a.array.length) junk).length = 2 * a.array.length := by
        simp [uninitialised]
      refine ⟨0, ⟨((a.array.set a.listSize.toNat value) ++
          uninitialised (a.arraySize * 2).toNat junk).take (a.arraySize * 2).toNat,
          a.arraySize * 2, a.listSize + 1⟩, ?_, ?_, rfl, ?_, Or.inl rfl, by simp,
          by simp [hfull]⟩
      · simp [arrayListInsert, hne, hin, hfull, hg]
      · simp only [ArrayList.contents, hsucc, hcap, List.take_take]
        rw [min_eq_left (by omega), List.take_append_of_le_length (by simp; omega)]
        exact take_set_succ _ _ _ hn
      · refine ⟨?_, ?_, ?_⟩
        · show ((((a.array.set a.listSize.toNat value) ++
            uninitialised (a.arraySize * 2).toNat junk).take
              (a.arraySize * 2).toNat).length : Int) = a.arraySize * 2
          rw [hcap, List.length_take, List.length_append, List.length_set, hulen]
          omega
        · show 0 ≤ a.listSize + 1
          omega
        · show a.listSize + 1 ≤ a.arraySize * 2
          omega
  · refine ⟨0, ⟨a.array.set a.listSize.toNat value, a.arraySize, a.listSize + 1⟩,
      ?_, hcont1, rfl, hvalid1, Or.inl rfl, by simp [hfull], by simp [hfull]⟩
    simp [arrayListInsert, hne, hin, hfull]

theorem arrayListSearch_first {a : ArrayList} {value : Int} {pre post : List Int}
    (hv : a.Valid) (hc : a.contents = pre ++ value :: post) (hpre : value ∉ pre) :
    arrayListSearch (some a) value = some (pre.length : Int) ∧
    a.array[pre.length]? = some value ∧ ∀ j, j < pre.length → a.array[j]? ≠ some value := by
  have hlen := ArrayList.contents_length hv.toNat_le
  have hl : pre.length + (post.length + 1) = a.listSize.toNat := by
    rw [← hlen, hc]; simp
  refine ⟨arrayListSearch_found hv hc hpre, ?_, ?_⟩
  · rw [ArrayList.getElem?_contents (by omega), hc, List.getElem?_append_right (le_refl _)]
    simp
  · intro j hj
    rw [ArrayList.getElem?_contents (by omega), hc, List.getElem?_append_left hj,
      List.getElem?_eq_getElem hj]
    intro e
    exact hpre ((Option.some.inj e) ▸ List.getElem_mem hj)

/-- C16, as stated, fails: on the array `[7]` of capacity 4 the insert of 7
returns 0 and stores the value at index 1, the old `listSize`, but the search
for 7 that follows returns 0, the index of the earlier occurrence. -/
theorem insert_then_search_duplicate :
    arrayListInsert (some ⟨[7, 0, 0, 0], 4, 1⟩) 7 none =
      some (0, some ⟨[7, 7, 0, 0], 4, 2⟩) ∧
    arrayListSearch (some ⟨[7, 7, 0, 0], 4, 2⟩) 7 = some 0 ∧
    arrayListSearch (some ⟨[7, 7, 0, 0], 4, 2⟩) 7 ≠
      some (⟨[7, 0, 0, 0], 4, 1⟩ : ArrayList).listSize :=
  ⟨rfl, rfl, by decide⟩

/-- C16, amended: on a valid array that is not full, after an
`arrayListInsert` of `value` that returns 0, the search for `value` returns
the smallest index holding `value`; this index is at most the old `listSize`,
the index at which the insert stored the value, and equals it exactly when
`value` did not occur in the array before the insert. -/
theorem insert_then_search_first_occurrence (a a1 : ArrayList) (value : Int)
    (check : Option (List Int)) (hv : a.Valid) (hlt : a.listSize < a.arraySize)
    (hrun : arrayListInsert (some a) value check = some (0, some a1)) :
    a1.array[a.listSize.toNat]? = some value ∧
    ∃ i : Nat, arrayListSearch (some a1) value = some (i : Int) ∧ (i : Int) ≤ a.listSize ∧
      a1.array[i]? = some value ∧ (∀ j, j < i → a1.array[j]? ≠ some value) ∧
      ((i : Int) = a.listSize ↔ value ∉ a.contents) := by
  obtain ⟨r, a2, hrun2, hcont, hsize, hvalid, _, _, _⟩ :=
    arrayListInsert_cases a value check hv hlt
  rw [hrun2] at hrun
  have hra : a2 = a1 := by
    have := Option.some.inj hrun
    exact Option.some.inj (Prod.mk.inj this).2
  subst hra
  have hlen := ArrayList.contents_length hv.toNat_le
  have hnonneg := hv.nonneg
  have hstored : a2.array[a.listSize.toNat]? = some value := by
    rw [ArrayList.getElem?_contents (by omega), hcont,
      List.getElem?_append_right (by omega)]
    simp [hlen]
  refine ⟨hstored, ?_⟩
  by_cases hmem : value ∈ a.contents
  · obtain ⟨pre, post, hpre, hc, _⟩ := List.exists_erase_eq hmem
    have hl : pre.length + (post.length + 1) = a.listSize.toNat := by
      rw [← hlen, hc]; simp
    have hc2 : a2.contents = pre ++ value :: (post ++ [value]) := by
      rw [hcont, hc]; simp
    obtain ⟨hs, hget, hmin⟩ := arrayListSearch_first hvalid hc2 hpre
    refine ⟨pre.length, hs, by omega, hget, hmin, ?_⟩
    constructor
    · intro h; omega
    · intro h; exact absurd hmem h
  · have hc2 : a2.contents = a.contents ++ value :: [] := hcont
    obtain ⟨hs, hget, hmin⟩ := arrayListSearch_first hvalid hc2 hmem
    refine ⟨a.contents.length, hs, by omega, hget, hmin, ?_⟩
    constructor
    · intro _; exact hmem
    · intro _; omega

theorem insert_then_search_first_occurrence_witness :
    (⟨[7, 0, 0, 0], 4, 1⟩ : ArrayList).Valid ∧
    arrayListInsert (some ⟨[7, 0, 0, 0], 4, 1⟩) 5 none =
      some (0, some ⟨[7, 5, 0, 0], 4, 2⟩) ∧
    ∃ i : Nat, arrayListSearch (some ⟨[7, 5, 0, 0], 4, 2⟩) 5 = some (i : Int) ∧
      ((i : Int) = 1 ↔ (5 : Int) ∉ (⟨[7, 0, 0, 0], 4, 1⟩ : ArrayList).contents) := by
  have hv : (⟨[7, 0, 0, 0], 4, 1⟩ : ArrayList).Valid := ⟨by decide, by decide, by decide⟩
  obtain ⟨_, i, hs, _, _, _, hiff⟩ :=
    insert_then_search_first_occurrence ⟨[7, 0, 0, 0], 4, 1⟩ ⟨[7, 5, 0, 0], 4, 2⟩ 5 none hv
      (by decide) rfl
  exact ⟨hv, rfl, i, hs, hiff⟩

theorem arrayListSearch_eq_neg_one_iff {a : ArrayList} (value : Int) (hv : a.Valid) :
    arrayListSearch (some a) value = some (-1) ↔ value ∉ a.contents := by
  rw [arrayListSearch_eq_of_contents value hv.nonneg hv.toNat_le]
  by_cases hmem : value ∈ a.contents
  · simp only [if_pos hmem, hmem, not_true_eq_false, iff_false]
    intro h
    have := Option.some.inj h
    omega
  · simp [hmem]

/-- C17, as stated, fails: on the array `[4, 4]` the removal of 4 returns 0
and leaves `[4]`, and the search for 4 that follows returns index 0, not -1. -/
theorem remove_then_search_duplicate :
    arrayListRemove (some ⟨[4, 4, 0, 0], 4, 2⟩) 4 = some (0, some ⟨[4, 4, 0, 0], 4, 1⟩) ∧
    (⟨[4, 4, 0, 0], 4, 1⟩ : ArrayList).contents = [4] ∧
    arrayListSearch (some ⟨[4, 4, 0, 0], 4, 1⟩) 4 = some 0 ∧
    arrayListSearch (some ⟨[4, 4, 0, 0], 4, 1⟩) 4 ≠ some (-1) :=
  ⟨rfl, rfl, rfl, by decide⟩

/-- C17, amended: on a valid array, after an `arrayListRemove` of `value` that
returns 0, the search for `value` returns -1 exactly when `value` occurred
once in the array before the removal; when it occurred more than once the
search returns the index of a remaining occurrence. -/
theorem remove_then_search_single_occurrence (a a1 : ArrayList) (value : Int)
    (hv : a.Valid) (hrun : arrayListRemove (some a) value = some (0, some a1)) :
    (arrayListSearch (some a1) value = some (-1) ↔ a.contents.count value = 1) ∧
    (a.contents.count value ≠ 1 →
      ∃ i : Nat, arrayListSearch (some a1) value = some (i : Int) ∧
        (i : Int) < a1.listSize ∧ a1.array[i]? = some value) := by
  have hmem : value ∈ a.contents := by
    by_contra hno
    rw [arrayListRemove_not_found hv hno] at hrun
    have := (Prod.mk.inj (Option.some.inj hrun)).1
    omega
  obtain ⟨pre, post, hpre, hc, he⟩ := List.exists_erase_eq hmem
  obtain ⟨a2, hrun2, hcont, _, _, hvalid⟩ := arrayListRemove_found hv hc hpre
  rw [hrun2] at hrun
  have hra : a2 = a1 := Option.some.inj (Prod.mk.inj (Option.some.inj hrun)).2
  subst hra
  have hcont2 : a2.contents = a.contents.erase value := by rw [hcont, he]
  have hcount : (a2.contents.count value) = a.contents.count value - 1 := by
    rw [hcont2, List.count_erase_self]
  have hpos : 1 ≤ a.contents.count value := List.one_le_count_iff.mpr hmem
  have hiff : arrayListSearch (some a2) value = some (-1) ↔ a.contents.count value = 1 := by
    rw [arrayListSearch_eq_neg_one_iff value hvalid, ← List.count_eq_zero, hcount]
    omega
  refine ⟨hiff, ?_⟩
  intro hne
  have hmem2 : value ∈ a2.contents := by
    rw [← List.count_pos_iff, hcount]; omega
  obtain ⟨pre2, post2, hpre2, hc2, _⟩ := List.exists_erase_eq hmem2
  obtain ⟨hs, hget, _⟩ := arrayListSearch_first hvalid hc2 hpre2
  have hlen := ArrayList.contents_length hvalid.toNat_le
  have hl : pre2.length + (post2.length + 1) = a2.listSize.toNat := by
    rw [← hlen, hc2]; simp
  have := hvalid.nonneg
  exact ⟨pre2.length, hs, by omega, hget⟩

theorem remove_then_search_single_occurrence_witness :
    (⟨[4, 8, 0, 0], 4, 2⟩ : ArrayList).Valid ∧
    arrayListRemove (some ⟨[4, 8, 0, 0], 4, 2⟩) 4 = some (0, some ⟨[8, 8, 0, 0], 4, 1⟩) ∧
    (arrayListSearch (some ⟨[8, 8, 0, 0], 4, 1⟩) 4 = some (-1) ↔
      (⟨[4, 8, 0, 0], 4, 2⟩ : ArrayList).contents.count 4 = 1) := by
  have hv : (⟨[4, 8, 0, 0], 4, 2⟩ : ArrayList).Valid := ⟨by decide, by decide, by decide⟩
  exact ⟨hv, rfl,
    (remove_then_search_single_occurrence ⟨[4, 8, 0, 0], 4, 2⟩ ⟨[8, 8, 0, 0], 4, 1⟩ 4 hv rfl).1⟩

/-! ### Reachable arrays -/

theorem arrayListInsert_total (a : ArrayList) (value : Int) (check : Option (List Int))
    (hv : a.Valid) :
    ∃ r a1, arrayListInsert (some a) value check = some (r, some a1) ∧ a1.Valid ∧
      (a1.arraySize = a.arraySize ∨ a1.arraySize = a.arraySize * 2) := by
  by_cases hfull : a.listSize = a.arraySize
  · exact ⟨-1, a, by simp [arrayListInsert, hfull], hv, Or.inl rfl⟩
  · have hlt : a.listSize < a.arraySize := lt_of_le_of_ne hv.bound hfull
    obtain ⟨r, a1, hrun, _, _, hvalid, _, _, hcap⟩ :=
      arrayListInsert_cases a value check hv hlt
    refine ⟨r, a1, hrun, hvalid, ?_⟩
    rw [hcap]
    split
    · exact Or.inr rfl
    · exact Or.inl rfl

theorem arrayListRemove_total (a : ArrayList) (value : Int) (hv : a.Valid) :
    ∃ r a1, arrayListRemove (some a) value = some (r, some a1) ∧ a1.Valid ∧
      a1.arraySize = a.arraySize := by
  by_cases hmem : value ∈ a.contents
  · obtain ⟨pre, post, hpre, hc, _⟩ := List.exists_erase_eq hmem
    obtain ⟨a1, hrun, _, _, hcap, hvalid⟩ := arrayListRemove_found hv hc hpre
    exact ⟨0, a1, hrun, hvalid, hcap⟩
  · exact ⟨-1, a, arrayListRemove_not_found hv hmem, hv, rfl⟩

theorem runArrayOps_invariant :
    ∀ (ops : List ArrayOp) (a : ArrayList), a.Valid → (∃ k : Nat, a.arraySize = 4 * 2 ^ k) →
      ∃ rs a1, runArrayOps ops a = some (rs, a1) ∧ a1.Valid ∧
        ∃ k : Nat, a1.arraySize = 4 * 2 ^ k
  | [], a, hv, hk => ⟨[], a, rfl, hv, hk⟩
  | op :: ops, a, hv, hk => by
    have hstep : ∃ r a1, op.run a = some (r, a1) ∧ a1.Valid ∧
        ∃ k : Nat, a1.arraySize = 4 * 2 ^ k := by
      obtain ⟨k, hk⟩ := hk
      cases op with
      | insert v check =>
        obtain ⟨r, a1, hrun, hvalid, hcap⟩ := arrayListInsert_total a v check hv
        refine ⟨r, a1, by simp [ArrayOp.run, hrun], hvalid, ?_⟩
        rcases hcap with hcap | hcap
        · exact ⟨k, by rw [hcap, hk]⟩
        · exact ⟨k + 1, by rw [hcap, hk, pow_succ]; ring⟩
      | remove v =>
        obtain ⟨r, a1, hrun, hvalid, hcap⟩ := arrayListRemove_total a v hv
        exact ⟨r, a1, by simp [ArrayOp.run, hrun], hvalid, k, by rw [hcap, hk]⟩
    obtain ⟨r, a1, hrun, hvalid, hk1⟩ := hstep
    obtain ⟨rs, a2, hrest, hvalid2, hk2⟩ := runArrayOps_invariant ops a1 hvalid hk1
    exact ⟨r :: rs, a2, by simp [runArrayOps, hrun, hrest], hvalid2, hk2⟩

/-- C18: `arrayListCreate`, when its allocations succeed, yields an array with
`arraySize` 4 and `listSize` 0, and after any sequence of `arrayListInsert`
and `arrayListRemove` calls on it, whatever the outcome of each reallocation,
every call returns and the array has `arraySize ≥ 4`,
`0 ≤ listSize ≤ arraySize`, and `arraySize = 4 * 2 ^ k` for some natural `k`;
its block has `arraySize` slots. -/
theorem array_invariant_reachable (junk : List Int) (ops : List ArrayOp) :
    ∃ a0, arrayListCreate true (some junk) = some a0 ∧ a0.arraySize = 4 ∧ a0.listSize = 0 ∧
      ∃ rs a, runArrayOps ops a0 = some (rs, a) ∧
        4 ≤ a.arraySize ∧ 0 ≤ a.listSize ∧ a.listSize ≤ a.arraySize ∧
        (∃ k : Nat, a.arraySize = 4 * 2 ^ k) ∧ (a.array.length : Int) = a.arraySize := by
  have hv0 : (⟨uninitialised MIN_ARRAY_SIZE.toNat junk, MIN_ARRAY_SIZE, 0⟩ : ArrayList).Valid := by
    refine ⟨?_, le_refl _, ?_⟩
    · show ((uninitialised MIN_ARRAY_SIZE.toNat junk).length : Int) = MIN_ARRAY_SIZE
      simp [uninitialised, MIN_ARRAY_SIZE]
    · show (0 : Int) ≤ MIN_ARRAY_SIZE
      decide
  obtain ⟨rs, a, hrun, hvalid, k, hk⟩ :=
    runArrayOps_invariant ops _ hv0 ⟨0, by simp [MIN_ARRAY_SIZE]⟩
  refine ⟨_, rfl, rfl, rfl, rs, a, hrun, ?_, hvalid.nonneg, hvalid.bound, ⟨k, hk⟩,
    hvalid.block⟩
  have h1 : (1 : Int) ≤ 2 ^ k := by exact_mod_cast Nat.one_le_two_pow
  rw [hk]
  linarith

/-! ### The iterator -/

theorem alIterTrace_spec (a : ArrayList) (hnonneg : 0 ≤ a.listSize)
    (hle : a.listSize.toNat ≤ a.array.length) :
    ∀ (todo done : List Int) (fuel : Nat), a.contents = done ++ todo → todo ≠ [] →
      todo.length ≤ fuel →
      alIterTrace a fuel (some ⟨(done.length : Int)⟩) =
        some ((todo.enumFrom done.length).map fun p => ((p.1 : Int), p.2))
  | [], _, _, _, hne, _ => absurd rfl hne
  | x :: rest, done, 0, _, _, hf => by simp at hf
  | x :: rest, done, f + 1, hc, _, hf => by
    have hlen := ArrayList.contents_length hle
    have hl : done.length + (rest.length + 1) = a.listSize.toNat := by
      rw [← hlen, hc]; simp
    have hval : alIterValue a ⟨(done.length : Int)⟩ = some x := by
      have hnot : ¬ ((done.length : Nat) : Int) < 0 := by omega
      simp only [alIterValue, hnot, if_false, Int.toNat_ofNat]
      rw [ArrayList.getElem?_contents (by omega), hc, List.getElem?_append_right (le_refl _)]
      simp
    cases rest with
    | nil =>
      have hnext : alIterNext a (some ⟨(done.length : Int)⟩) = none := by
        have : (done.length : Int) + 1 = a.listSize := by simp at hl; omega
        simp [alIterNext, this]
      simp only [alIterTrace, hval, hnext, Option.bind_eq_bind, Option.some_bind,
        Option.pure_def]
      cases f <;> simp [alIterTrace]
    | cons y ys =>
      have hnext : alIterNext a (some ⟨(done.length : Int)⟩) =
          some ⟨((done ++ [x]).length : Int)⟩ := by
        have : ¬ (done.length : Int) + 1 = a.listSize := by
          simp only [List.length_cons] at hl; omega
        simp [alIterNext, this]
      have ih := alIterTrace_spec a hnonneg hle (y :: ys) (done ++ [x]) f
        (by rw [hc]; simp) (by simp) (by simpa using hf)
      simp only [alIterTrace, hval, hnext, ih, Option.bind_eq_bind, Option.some_bind,
        Option.pure_def]
      simp

theorem arrayListPrintLoop_eq_trace (a : ArrayList) :
    ∀ (fuel : Nat) (it : Option ALIter),
      arrayListPrintLoop a fuel it = (alIterTrace a fuel it).map (List.map Prod.snd)
  | 0, none => rfl
  | _ + 1, none => rfl
  | 0, some _ => rfl
  | f + 1, some it => by
    have ih := arrayListPrintLoop_eq_trace a f (alIterNext a (some it))
    simp only [arrayListPrintLoop, alIterTrace, ih, Option.bind_eq_bind, Option.pure_def]
    cases alIterValue a it with
    | none => rfl
    | some v =>
      cases alIterTrace a f (alIterNext a (some it)) with
      | none => rfl
      | some rest => rfl

/-- C19, as stated, fails: on the array `[3, 7, 9]`, when the `malloc` of
`alIterCreate` fails, `alIterCreate` returns `NULL`, so the traversal takes no
step and yields nothing, and `arrayListPrint` prints no element and returns
0. -/
theorem iterator_empty_when_allocation_fails :
    alIterCreate (some ⟨[3, 7, 9, 0], 4, 3⟩) false = none ∧
    alIterTrace ⟨[3, 7, 9, 0], 4, 3⟩ 3 (alIterCreate (some ⟨[3, 7, 9, 0], 4, 3⟩) false) =
      some [] ∧
    arrayListPrint (some ⟨[3, 7, 9, 0], 4, 3⟩) false = some (0, []) ∧
    (⟨[3, 7, 9, 0], 4, 3⟩ : ArrayList).contents = [3, 7, 9] :=
  ⟨rfl, rfl, rfl, rfl⟩

/-- C19, amended: on a valid array that stays as it is during the traversal,
when the `malloc` of `alIterCreate` succeeds, driving
the iterator as `arrayListPrint` does (`alIterCreate`, then `alIterValue` and
`alIterNext` until `NULL`) ends after exactly `listSize` steps, reads the
indices `0, 1, ..., listSize - 1` in this order, all of them in
`[0, listSize)`, and yields `array[0], ..., array[listSize - 1]`, which is also
what `arrayListPrint` prints before returning 0.  On an empty array
`alIterCreate` returns `NULL` and the sequence is empty. -/
theorem iterator_yields_contents (a : ArrayList) (hv : a.Valid) :
    ∃ trace, alIterTrace a a.listSize.toNat (alIterCreate (some a) true) = some trace ∧
      trace.length = a.listSize.toNat ∧
      trace.map Prod.snd = a.contents ∧
      trace.map Prod.fst = (List.range a.listSize.toNat).map (fun i : Nat => (i : Int)) ∧
      (∀ p ∈ trace, 0 ≤ p.1 ∧ p.1 < a.listSize) ∧
      (a.listSize = 0 → alIterCreate (some a) true = none ∧ trace = []) ∧
      arrayListPrint (some a) true = some (0, a.contents) := by
  have hle := hv.toNat_le
  have hnonneg := hv.nonneg
  have hlen := ArrayList.contents_length hle
  have htrace : alIterTrace a a.listSize.toNat (alIterCreate (some a) true) =
      some ((a.contents.enumFrom 0).map fun p => ((p.1 : Int), p.2)) := by
    by_cases h0 : a.listSize = 0
    · have hnil : a.contents = [] := by
        apply List.eq_nil_of_length_eq_zero; rw [hlen, h0]; rfl
      simp [alIterCreate, h0, hnil, alIterTrace]
    · have hne : a.contents ≠ [] := by
        intro e
        rw [e] at hlen
        simp at hlen
        omega
      have := alIterTrace_spec a hnonneg hle a.contents [] a.listSize.toNat (by simp) hne
        (by omega)
      simpa [alIterCreate, h0] using this
  have hfst : ((a.contents.enumFrom 0).map fun p => ((p.1 : Int), p.2)).map Prod.fst =
      (List.range a.listSize.toNat).map (fun i : Nat => (i : Int)) := by
    rw [List.map_map, ← hlen, ← List.enum_map_fst a.contents, List.map_map]
    rfl
  refine ⟨_, htrace, by simp [hlen], ?_, hfst, ?_, ?_, ?_⟩
  · rw [List.map_map]
    exact List.enumFrom_map_snd 0 a.contents
  · intro p hp
    have hmem : p.1 ∈ (List.range a.listSize.toNat).map (fun i : Nat => (i : Int)) := by
      rw [← hfst]; exact List.mem_map_of_mem _ hp
    obtain ⟨i, hi, hip⟩ := List.mem_map.mp hmem
    have := List.mem_range.mp hi
    constructor <;> omega
  · intro h0
    have hnil : a.contents = [] := by
      apply List.eq_nil_of_length_eq_zero; rw [hlen, h0]; rfl
    simp [alIterCreate, h0, hnil]
  · simp only [arrayListPrint, arrayListPrintLoop_eq_trace, htrace, Option.map_some',
      List.map_map]
    congr 2
    exact List.enumFrom_map_snd 0 a.contents

theorem iterator_yields_contents_witness :
    (⟨[3, 7, 9, 0], 4, 3⟩ : ArrayList).Valid ∧
    alIterTrace ⟨[3, 7, 9, 0], 4, 3⟩ 3 (alIterCreate (some ⟨[3, 7, 9, 0], 4, 3⟩) true) =
      some [(0, 3), (1, 7), (2, 9)] ∧
    arrayListPrint (some ⟨[3, 7, 9, 0], 4, 3⟩) true = some (0, [3, 7, 9]) := by
  have hv : (⟨[3, 7, 9, 0], 4, 3⟩ : ArrayList).Valid := ⟨by decide, by decide, by decide⟩
  obtain ⟨_, _, _, _, _, _, _, hprint⟩ := iterator_yields_contents ⟨[3, 7, 9, 0], 4, 3⟩ hv
  exact ⟨hv, rfl, hprint⟩

/-! ## The NULL handle -/

/-- C20: given the `NULL` handle, every operation returns at once with its
failure result and leaves the heap as it is: `linkedListInsertFront`,
`linkedListInsertBack` and `linkedListRemoveValue` return -1,
`linkedListSearch`, `linkedListPeekFront`, `linkedListPeekBack`,
`linkedListPopFront` and `linkedListPopBack` return `NULL`, `arrayListInsert`,
`arrayListSearch`, `arrayListRemove` and `arrayListPrint` return -1 (and
nothing is printed), and `alIterCreate` returns `NULL`.  None of the calls is
undefined, so none reads through the handle. -/
theorem null_handle_is_noop (m : Store) (value : Bytes) (size : Int)
    (nodeOk valueOk : Bool) (v : Int) (check : Option (List Int)) (allocOk : Bool) :
    linkedListInsertFront m none value size nodeOk valueOk = some ⟨-1, m, none⟩ ∧
    linkedListInsertBack m none value size nodeOk valueOk = some ⟨-1, m, none⟩ ∧
    linkedListRemoveValue m none value = some ⟨-1, m, none⟩ ∧
    linkedListSearch m none value = some none ∧
    linkedListPeekFront m none = some none ∧
    linkedListPeekBack m none = some none ∧
    linkedListPopFront m none = some ⟨none, m, none⟩ ∧
    linkedListPopBack m none = some ⟨none, m, none⟩ ∧
    arrayListInsert none v check = some (-1, none) ∧
    arrayListSearch none v = some (-1) ∧
    arrayListRemove none v = some (-1, none) ∧
    arrayListPrint none allocOk = some (-1, []) ∧
    alIterCreate none allocOk = none :=
  ⟨rfl, rfl, rfl, rfl, rfl, rfl, rfl, rfl, rfl, rfl, rfl, rfl, rfl⟩

/-! ## Growth of the array -/

/-- C22, as stated, fails: when 1, 2, ..., 7 are inserted into a fresh array
with every reallocation succeeding, the capacity is 8, not 4, once the first
four values have been inserted. -/
theorem capacity_after_four_inserts :
    arrayListCreate true (some []) = some freshArray ∧
    (runArrayOps (insertOneToSeven.take 4) freshArray).map
      (fun r => (r.2.contents, r.2.listSize, r.2.arraySize)) = some ([1, 2, 3, 4], 4, 8) ∧
    capacityAfter insertOneToSeven freshArray 4 ≠ some 4 :=
  ⟨rfl, rfl, by decide⟩

/-- C22, amended: when 1, 2, ..., 7 are inserted into a fresh array with every
reallocation succeeding, the capacity grows from 4 to 8 during the fourth
insert, the one that fills the array: it is 4 after zero, one, two and three
inserts and 8 after four, five, six and seven. -/
theorem capacity_grows_at_fourth_insert :
    arrayListCreate true (some []) = some freshArray ∧
    (List.range 8).map (capacityAfter insertOneToSeven freshArray) =
      [some 4, some 4, some 4, some 4, some 8, some 8, some 8, some 8] ∧
    (runArrayOps insertOneToSeven freshArray).map
      (fun r => (r.1, r.2.contents, r.2.listSize, r.2.arraySize)) =
      some ([0, 0, 0, 0, 0, 0, 0], [1, 2, 3, 4, 5, 6, 7], 7, 8) :=
  ⟨rfl, rfl, rfl⟩

theorem arrayListRemove_shrinks (a : ArrayList) (value : Int) (hv : a.Valid) :
    ∃ r a1, arrayListRemove (some a) value = some (r, some a1) ∧ a1.Valid ∧
      a1.arraySize = a.arraySize ∧ a1.listSize ≤ a.listSize := by
  by_cases hmem : value ∈ a.contents
  · obtain ⟨pre, post, hpre, hc, _⟩ := List.exists_erase_eq hmem
    obtain ⟨a1, hrun, _, hsize, hcap, hvalid⟩ := arrayListRemove_found hv hc hpre
    exact ⟨0, a1, hrun, hvalid, hcap, by omega⟩
  · exact ⟨-1, a, arrayListRemove_not_found hv hmem, hv, rfl, le_refl _⟩

theorem arrayListInsert_grows (a : ArrayList) (value : Int) (check : Option (List Int))
    (hv : a.Valid) (hlt : a.listSize < a.arraySize)
    (hok : (ArrayOp.insert value check).growthSucceeds a = true) :
    ∃ a1, arrayListInsert (some a) value check = some (0, some a1) ∧ a1.Valid ∧
      a1.listSize < a1.arraySize := by
  obtain ⟨r, a1, hrun, _, hsize, hvalid, hr, hfail, hcap⟩ :=
    arrayListInsert_cases a value check hv hlt
  have hgrow : a.listSize + 1 = a.arraySize →
      reallocDoubled (a.array.set a.listSize.toNat value) a.arraySize check ≠ none := by
    intro hfull hnone
    simp [ArrayOp.growthSucceeds, hfull, hnone] at hok
  have hr0 : r = 0 := by
    rcases hr with h0 | h1
    · exact h0
    · exact absurd (hfail.mp h1).2 (hgrow (hfail.mp h1).1)
  subst hr0
  refine ⟨a1, hrun, hvalid, ?_⟩
  have hnonneg := hv.nonneg
  rw [hcap, hsize]
  by_cases hfull : a.listSize + 1 = a.arraySize
  · rw [if_pos ⟨hfull, hgrow hfull⟩]; omega
  · rw [if_neg (fun h => hfull h.1)]; omega

theorem runArrayOps_not_full :
    ∀ (ops : List ArrayOp) (a : ArrayList), a.Valid → a.listSize < a.arraySize →
      growthsSucceed ops a = true →
      ∃ rs a1, runArrayOps ops a = some (rs, a1) ∧ a1.Valid ∧ a1.listSize < a1.arraySize ∧
        ∀ p ∈ ops.zip rs, (∃ v check, p.1 = ArrayOp.insert v check) → p.2 = 0
  | [], a, hv, hlt, _ => ⟨[], a, rfl, hv, hlt, by simp⟩
  | op :: ops, a, hv, hlt, hok => by
    simp only [growthsSucceed, Bool.and_eq_true] at hok
    obtain ⟨hop, hrest⟩ := hok
    have hstep : ∃ r a1, op.run a = some (r, a1) ∧ a1.Valid ∧ a1.listSize < a1.arraySize ∧
        ((∃ v check, op = ArrayOp.insert v check) → r = 0) := by
      cases op with
      | insert v check =>
        obtain ⟨a1, hrun, hvalid, hlt1⟩ := arrayListInsert_grows a v check hv hlt hop
        exact ⟨0, a1, by simp [ArrayOp.run, hrun], hvalid, hlt1, fun _ => rfl⟩
      | remove v =>
        obtain ⟨r, a1, hrun, hvalid, hcap, hle⟩ := arrayListRemove_shrinks a v hv
        refine ⟨r, a1, by simp [ArrayOp.run, hrun], hvalid, by omega, ?_⟩
        rintro ⟨v1, c1, h⟩
        cases h
    obtain ⟨r, a1, hrun, hvalid, hlt1, hr⟩ := hstep
    simp only [hrun] at hrest
    obtain ⟨rs, a2, hrun2, hvalid2, hlt2, hrs⟩ :=
      runArrayOps_not_full ops a1 hvalid hlt1 hrest
    refine ⟨r :: rs, a2, by simp [runArrayOps, hrun, hrun2], hvalid2, hlt2, ?_⟩
    intro p hp hins
    rw [List.zip_cons_cons] at hp
    rcases List.mem_cons.mp hp with rfl | hp
    · exact hr hins
    · exact hrs p hp hins

/-- C23: if every growth reallocation succeeds (each `realloc` call made while
the sequence runs returns a block), then after any sequence of
`arrayListInsert` and `arrayListRemove` calls on a freshly created array every
call has returned, `listSize` is strictly less than `arraySize`, every insert
of the sequence has returned 0, and a further insert whose reallocation, if it
needs one, succeeds returns 0 as well.  The full state is reached when a
reallocation fails: after the inserts of 1, 2, 3, 4 with the reallocation
failing, `listSize` equals `arraySize`. -/
theorem full_only_after_failed_growth (junk : List Int) (ops : List ArrayOp)
    (a0 : ArrayList) (hcreate : arrayListCreate true (some junk) = some a0)
    (hok : growthsSucceed ops a0 = true) :
    (∃ rs a, runArrayOps ops a0 = some (rs, a) ∧ a.listSize < a.arraySize ∧
      (∀ p ∈ ops.zip rs, (∃ v check, p.1 = ArrayOp.insert v check) → p.2 = 0) ∧
      (∀ v check, (ArrayOp.insert v check).growthSucceeds a = true →
        ∃ a1, arrayListInsert (some a) v check = some (0, some a1))) ∧
    (runArrayOps [.insert 1 none, .insert 2 none, .insert 3 none, .insert 4 none]
        freshArray).map (fun r => (r.2.listSize, r.2.arraySize)) = some (4, 4) := by
  refine ⟨?_, rfl⟩
  have hv0 : (⟨uninitialised MIN_ARRAY_SIZE.toNat junk, MIN_ARRAY_SIZE, 0⟩ : ArrayList).Valid := by
    refine ⟨?_, le_refl _, ?_⟩
    · show ((uninitialised MIN_ARRAY_SIZE.toNat junk).length : Int) = MIN_ARRAY_SIZE
      simp [uninitialised, MIN_ARRAY_SIZE]
    · show (0 : Int) ≤ MIN_ARRAY_SIZE
      decide
  have ha0 : a0 = ⟨uninitialised MIN_ARRAY_SIZE.toNat junk, MIN_ARRAY_SIZE, 0⟩ :=
    (Option.some.inj hcreate).symm
  subst ha0
  obtain ⟨rs, a, hrun, hvalid, hlt, hrs⟩ :=
    runArrayOps_not_full ops _ hv0 (by show (0 : Int) < MIN_ARRAY_SIZE; decide) hok
  refine ⟨rs, a, hrun, hlt, hrs, ?_⟩
  intro v check hgrow
  obtain ⟨a1, h1, _⟩ := arrayListInsert_grows a v check hvalid hlt hgrow
  exact ⟨a1, h1⟩

theorem full_only_after_failed_growth_witness :
    arrayListCreate true (some []) = some freshArray ∧
    growthsSucceed (insertOneToSeven ++ [ArrayOp.remove 4]) freshArray = true ∧
    ∃ rs a, runArrayOps (insertOneToSeven ++ [ArrayOp.remove 4]) freshArray = some (rs, a) ∧
      a.listSize < a.arraySize := by
  obtain ⟨⟨rs, a, hrun, hlt, _⟩, _⟩ :=
    full_only_after_failed_growth [] (insertOneToSeven ++ [ArrayOp.remove 4]) freshArray
      rfl rfl
  exact ⟨rfl, rfl, rs, a, hrun, hlt⟩

theorem runArrayOps_full_inserts (a : ArrayList) (hfull : a.listSize = a.arraySize) :
    ∀ ops : List ArrayOp, (∀ op ∈ ops, ∃ v c, op = ArrayOp.insert v c) →
      runArrayOps ops a = some (ops.map (fun _ => (-1 : Int)), a)
  | [], _ => rfl
  | op :: ops, h => by
    obtain ⟨v, c, rfl⟩ := h op (List.mem_cons_self _ _)
    have ih := runArrayOps_full_inserts a hfull ops
      (fun o ho => h o (List.mem_cons_of_mem _ ho))
    simp [runArrayOps, ArrayOp.run, arrayListInsert, hfull, ih]

/-- C25: on a valid array with `listSize = arraySize`, any sequence of
`arrayListInsert` calls returns -1 each time and leaves the array as it is,
whatever the outcome a reallocation would have (none is attempted).  After an
`arrayListRemove` that returns 0, the next `arrayListInsert` stores its value
in slot `arraySize - 1` and makes `listSize` equal `arraySize` again, and it
does attempt the doubling: when its `realloc` call returns a block the
capacity becomes twice the old one and the call returns 0, when it returns
`NULL` the capacity stays and the call returns -1. -/
theorem full_latch_released_by_remove (a a1 : ArrayList) (value w : Int)
    (check : Option (List Int)) (hv : a.Valid) (hfull : a.listSize = a.arraySize)
    (hrem : arrayListRemove (some a) value = some (0, some a1)) :
    (∀ ops : List ArrayOp, (∀ op ∈ ops, ∃ v c, op = ArrayOp.insert v c) →
      runArrayOps ops a = some (ops.map (fun _ => (-1 : Int)), a)) ∧
    ∃ r a2, arrayListInsert (some a1) w check = some (r, some a2) ∧
      a2.array[(a.arraySize - 1).toNat]? = some w ∧
      a2.contents = a1.contents ++ [w] ∧ a2.listSize = a.arraySize ∧
      (∀ buf, reallocDoubled (a1.array.set a1.listSize.toNat w) a1.arraySize check =
          some buf → r = 0 ∧ a2.arraySize = a.arraySize * 2) ∧
      (reallocDoubled (a1.array.set a1.listSize.toNat w) a1.arraySize check = none →
        r = -1 ∧ a2.arraySize = a.arraySize) := by
  refine ⟨runArrayOps_full_inserts a hfull, ?_⟩
  have hmem : value ∈ a.contents := by
    by_contra hno
    rw [arrayListRemove_not_found hv hno] at hrem
    have := (Prod.mk.inj (Option.some.inj hrem)).1
    omega
  obtain ⟨pre, post, hpre, hc, _⟩ := List.exists_erase_eq hmem
  obtain ⟨a3, hrun3, _, hsize, hcap, hvalid⟩ := arrayListRemove_found hv hc hpre
  rw [hrun3] at hrem
  have hra : a3 = a1 := Option.some.inj (Prod.mk.inj (Option.some.inj hrem)).2
  subst hra
  have hlt : a3.listSize < a3.arraySize := by omega
  obtain ⟨r, a2, hins, hcont, hsize2, hvalid2, hr, hfail, hcap2⟩ :=
    arrayListInsert_cases a3 w check hvalid hlt
  have hrefill : a3.listSize + 1 = a3.arraySize := by omega
  have hlen3 := ArrayList.contents_length hvalid.toNat_le
  have hnonneg3 := hvalid.nonneg
  refine ⟨r, a2, hins, ?_, hcont, by omega, ?_, ?_⟩
  · have hidx : (a.arraySize - 1).toNat = a3.contents.length := by
      rw [hlen3]; omega
    rw [hidx, ArrayList.getElem?_contents (by omega), hcont,
      List.getElem?_append_right (le_refl _)]
    simp
  · intro buf hbuf
    have hsome : reallocDoubled (a3.array.set a3.listSize.toNat w) a3.arraySize check ≠
        none := by rw [hbuf]; simp
    have hne : r ≠ -1 := fun h => hsome (hfail.mp h).2
    refine ⟨by rcases hr with h | h; exact h; exact absurd h hne, ?_⟩
    rw [hcap2, if_pos ⟨hrefill, hsome⟩, hcap]
  · intro hn
    refine ⟨hfail.mpr ⟨hrefill, hn⟩, ?_⟩
    rw [hcap2, if_neg (fun h => h.2 hn), hcap]

theorem full_latch_released_by_remove_witness :
    (⟨[1, 2, 3, 4], 4, 4⟩ : ArrayList).Valid ∧
    arrayListRemove (some ⟨[1, 2, 3, 4], 4, 4⟩) 2 = some (0, some ⟨[1, 3, 4, 4], 4, 3⟩) ∧
    runArrayOps [.insert 8 (some []), .insert 9 none] ⟨[1, 2, 3, 4], 4, 4⟩ =
      some ([-1, -1], ⟨[1, 2, 3, 4], 4, 4⟩) ∧
    ∃ r a2, arrayListInsert (some ⟨[1, 3, 4, 4], 4, 3⟩) 9 (some []) = some (r, some a2) ∧
      a2.array[3]? = some 9 ∧ r = 0 ∧ a2.arraySize = 8 := by
  have hv : (⟨[1, 2, 3, 4], 4, 4⟩ : ArrayList).Valid := ⟨by decide, by decide, by decide⟩
  obtain ⟨hrej, r, a2, hins, hget, _, _, hok, _⟩ :=
    full_latch_released_by_remove ⟨[1, 2, 3, 4], 4, 4⟩ ⟨[1, 3, 4, 4], 4, 3⟩ 2 9 (some [])
      hv rfl rfl
  exact ⟨hv, rfl, hrej [.insert 8 (some []), .insert 9 none] (by simp),
    r, a2, hins, hget, (hok _ rfl).1, (hok _ rfl).2⟩

theorem arrayListInsert_overflow (a : ArrayList) (value : Int) (check : Option (List Int))
    (hv : a.Valid) (hfill : a.listSize + 1 = a.arraySize) (hbig : 2 ^ 30 ≤ a.arraySize) :
    ∃ a1, arrayListInsert (some a) value check = some (-1, some a1) ∧
      a1.contents = a.contents ++ [value] ∧ a1.listSize = a1.arraySize ∧
      a1.arraySize = a.arraySize := by
  obtain ⟨r, a1, hrun, hcont, hsize, _, _, hfail, hcap⟩ :=
    arrayListInsert_cases a value check hv (by omega)
  have hnone : reallocDoubled (a.array.set a.listSize.toNat value) a.arraySize check = none :=
    (reallocDoubled_none_iff _ _ _).mpr (Or.inl (by unfold INT_MAX; omega))
  have hr : r = -1 := hfail.mpr ⟨hfill, hnone⟩
  subst hr
  have hcap1 : a1.arraySize = a.arraySize := by
    rw [hcap, if_neg (fun h => h.2 hnone)]
  exact ⟨a1, hrun, hcont, by rw [hcap1, hsize, hfill], hcap1⟩

/-! ## The length after a run of inserts -/

theorem runInserts_length :
    ∀ (calls : List (Int × Option (List Int))) (a : ArrayList), a.Valid →
      a.listSize < a.arraySize →
      ∃ rs a1, runArrayOps (calls.map fun p => ArrayOp.insert p.1 p.2) a = some (rs, a1) ∧
        rs.length = calls.length ∧ (∀ r ∈ rs, r = 0 ∨ r = -1) ∧
        a1.listSize = a.listSize + ((rs.filter fun r => r = 0).length : Int) +
          (if (-1 : Int) ∈ rs then 1 else 0)
  | [], a, _, _ => ⟨[], a, rfl, rfl, by simp, by simp⟩
  | p :: rest, a, hv, hlt => by
    obtain ⟨r, a1, hrun, _, hsize, hvalid, hr, hfail, hcap⟩ :=
      arrayListInsert_cases a p.1 p.2 hv hlt
    have hnonneg := hv.nonneg
    rcases hr with h0 | h1
    · subst h0
      have hnot : ¬ (a.listSize + 1 = a.arraySize ∧
          reallocDoubled (a.array.set a.listSize.toNat p.1) a.arraySize p.2 = none) :=
        fun h => absurd (hfail.mpr h) (by decide)
      have hlt1 : a1.listSize < a1.arraySize := by
        rw [hcap, hsize]
        by_cases hfill : a.listSize + 1 = a.arraySize
        · rw [if_pos ⟨hfill, fun h => hnot ⟨hfill, h⟩⟩]; omega
        · rw [if_neg (fun h => hfill h.1)]; omega
      obtain ⟨rs, a2, hrun2, hlen, hrs, hcount⟩ := runInserts_length rest a1 hvalid hlt1
      refine ⟨0 :: rs, a2, by simp [runArrayOps, ArrayOp.run, hrun, hrun2], by simp [hlen],
        ?_, ?_⟩
      · intro x hx
        rcases List.mem_cons.mp hx with rfl | hx
        · exact Or.inl rfl
        · exact hrs x hx
      · have hmem : ((-1 : Int) ∈ (0 : Int) :: rs) ↔ (-1 : Int) ∈ rs := by simp
        rw [hcount, hsize]
        simp only [hmem, List.filter_cons, decide_True, if_true, List.length_cons]
        push_cast
        ring
    · subst h1
      obtain ⟨hfill, hnone⟩ := hfail.mp rfl
      have hfull1 : a1.listSize = a1.arraySize := by
        rw [hcap, if_neg (fun h => h.2 hnone), hsize]; exact hfill
      have hrest := runArrayOps_full_inserts a1 hfull1
        (rest.map fun p => ArrayOp.insert p.1 p.2)
        (fun op hop => by
          obtain ⟨q, _, rfl⟩ := List.mem_map.mp hop
          exact ⟨q.1, q.2, rfl⟩)
      refine ⟨-1 :: (rest.map fun p => ArrayOp.insert p.1 p.2).map (fun _ => (-1 : Int)), a1,
        by simp [runArrayOps, ArrayOp.run, hrun, hrest], by simp, ?_, ?_⟩
      · intro x hx
        rcases List.mem_cons.mp hx with rfl | hx
        · exact Or.inr rfl
        · obtain ⟨_, _, rfl⟩ := List.mem_map.mp hx
          exact Or.inr rfl
      · have hfilter : ((-1 : Int) ::
            (rest.map fun p => ArrayOp.insert p.1 p.2).map (fun _ => (-1 : Int))).filter
            (fun r => r = 0) = [] := by
          rw [List.filter_eq_nil_iff]
          intro x hx
          rcases List.mem_cons.mp hx with rfl | hx
          · decide
          · obtain ⟨_, _, rfl⟩ := List.mem_map.mp hx
            decide
        rw [hfilter, hsize]
        simp

/-- C12, amended: for every sequence of `arrayListInsert` calls on a freshly
created array, and every outcome of the growth reallocations along the way,
every call returns 0 or -1 and the final `listSize` equals the number of calls
that returned 0, plus one when some call returned -1: the first call to return
-1 is the one whose growth reallocation failed, and it had stored its value
and incremented `listSize` before returning; every later call is rejected. -/
theorem length_counts_stored_inserts (junk : List Int)
    (calls : List (Int × Option (List Int))) :
    ∃ a0, arrayListCreate true (some junk) = some a0 ∧
      ∃ rs a, runArrayOps (calls.map fun p => ArrayOp.insert p.1 p.2) a0 = some (rs, a) ∧
        rs.length = calls.length ∧ (∀ r ∈ rs, r = 0 ∨ r = -1) ∧
        a.listSize = ((rs.filter fun r => r = 0).length : Int) +
          (if (-1 : Int) ∈ rs then 1 else 0) := by
  have hv0 : (⟨uninitialised MIN_ARRAY_SIZE.toNat junk, MIN_ARRAY_SIZE, 0⟩ : ArrayList).Valid := by
    refine ⟨?_, le_refl _, ?_⟩
    · show ((uninitialised MIN_ARRAY_SIZE.toNat junk).length : Int) = MIN_ARRAY_SIZE
      simp [uninitialised, MIN_ARRAY_SIZE]
    · show (0 : Int) ≤ MIN_ARRAY_SIZE
      decide
  obtain ⟨rs, a, hrun, hlen, hrs, hcount⟩ :=
    runInserts_length calls _ hv0 (by show (0 : Int) < MIN_ARRAY_SIZE; decide)
  refine ⟨_, rfl, rs, a, hrun, hlen, hrs, ?_⟩
  rw [hcount]
  show (0 : Int) + _ + _ = _
  ring

/-! ## Ownership of the value storage -/

theorem walkPrev_seg {m : Store} (g : List Cell) :
    ∀ {cur last nxt : Ptr} (fuel : Nat), Seg m none cur g last nxt → g.length ≤ fuel →
      walkPrev m fuel last = some (g.map Cell.addr).reverse := by
  induction g using List.reverseRecOn with
  | nil =>
    intro cur last nxt fuel h _
    obtain ⟨_, rfl⟩ := h
    cases fuel <;> rfl
  | append_singleton xs c ih =>
    intro cur last nxt fuel h hf
    obtain ⟨ml, mc, hxs, hmc, n, hnode, hval, hn, hl⟩ := Seg.append.mp h
    subst hl
    cases fuel with
    | zero => simp at hf
    | succ f =>
      have := ih f hxs (by simp at hf; omega)
      simp [walkPrev, hnode, this]

theorem WellFormed.reachableNodesBackward_eq {m : Store} {l : LinkedList} {g : List Cell}
    (h : WellFormed m l g) :
    reachableNodesBackward m l = some (g.map Cell.addr).reverse :=
  walkPrev_seg g _ h.chain h.length_le

theorem Seg.links {m : Store} {g : List Cell} {cur last : Ptr}
    (h : Seg m none cur g last none) :
    ∀ x ∈ g, ∃ n, m.node x.addr = some n ∧
      (∀ p, n.prev = some p → (m.node p).map (fun k => k.next) = some (some x.addr)) ∧
      (∀ q, n.next = some q → (m.node q).map (fun k => k.prev) = some (some x.addr)) := by
  intro x hx
  obtain ⟨xs, ys, rfl⟩ := List.append_of_mem hx
  obtain ⟨ml, mc, hxs, hmc, n, hnode, hval, hys⟩ := Seg.append.mp h
  refine ⟨_, hnode, ?_, ?_⟩
  · intro p hp
    simp only at hp
    rcases List.eq_nil_or_concat xs with rfl | ⟨zs, z, hz⟩
    · obtain ⟨_, hml⟩ := hxs
      rw [hml] at hp
      cases hp
    · rw [List.concat_eq_append] at hz
      subst hz
      obtain ⟨ml1, mc1, _, _, nz, hnodez, _, hnz, hmlz⟩ := Seg.append.mp hxs
      rw [hmlz] at hp
      have hpz : z.addr = p := Option.some.inj hp
      subst hpz
      rw [hnodez]
      simp [hnz, hmc]
  · intro q hq
    simp only at hq
    cases ys with
    | nil =>
      obtain ⟨hn, _⟩ := hys
      rw [hn] at hq
      cases hq
    | cons y ys1 =>
      obtain ⟨hn, ny, hnodey, _, _⟩ := hys
      rw [hn] at hq
      have hqy : y.addr = q := Option.some.inj hq
      subst hqy
      rw [hnodey]
      rfl

theorem WellFormed.ends {m : Store} {l : LinkedList} {g : List Cell}
    (h : WellFormed m l g) :
    (l.head = none ↔ l.size = 0) ∧ (l.size = 0 ↔ l.tail = none) ∧
    (∀ a, l.head = some a → (m.node a).map (fun k => k.prev) = some none) ∧
    (∀ t, l.tail = some t → (m.node t).map (fun k => k.next) = some none) := by
  rcases List.eq_nil_or_concat g with rfl | ⟨xs, c, hg⟩
  · obtain ⟨hh, ht⟩ := h.chain
    have hs := h.size
    simp at hs
    simp [hh, ht, hs]
  · rw [List.concat_eq_append] at hg
    subst hg
    have hs := h.size
    have hsz : l.size ≠ 0 := by
      rw [hs]; simp; omega
    obtain ⟨ml, mc, hxs, hmc, n, hnode, hval, hn, ht⟩ := Seg.append.mp h.chain
    have hhead : ∃ a n1, l.head = some a ∧ m.node a = some n1 ∧ n1.prev = none := by
      cases xs with
      | nil =>
        obtain ⟨hcur, hml⟩ := hxs
        exact ⟨c.addr, _, by rw [hcur, hmc], hnode, hml⟩
      | cons d ds =>
        obtain ⟨hcur, nd, hnoded, _, _⟩ := hxs
        exact ⟨d.addr, _, hcur, hnoded, rfl⟩
    obtain ⟨a, n1, hha, hna, hpa⟩ := hhead
    refine ⟨by simp [hha, hsz], by simp [ht, hsz], ?_, ?_⟩
    · intro a1 ha1
      rw [hha] at ha1
      cases ha1
      simp [hna, hpa]
    · intro t1 ht1
      rw [ht] at ht1
      cases ht1
      simp [hnode, hn]

theorem Store.node_append_none (m : Store) (b : Nat) :
    Store.node { m with nodes := m.nodes ++ [none] } b = m.node b := by
  unfold Store.node
  rcases Nat.lt_trichotomy b m.nodes.length with hb | hb | hb
  · simp [List.getElem?_append_left hb]
  · subst hb; simp
  · have h1 : m.nodes[b]? = none := List.getElem?_eq_none (by omega)
    have h2 : (m.nodes ++ [(none : Option ListNode)])[b]? = none :=
      List.getElem?_eq_none (by simp; omega)
    simp [h1, h2]

theorem WellFormed.append_none {m : Store} {l : LinkedList} {g : List Cell}
    (h : WellFormed m l g) : WellFormed { m with nodes := m.nodes ++ [none] } l g :=
  ⟨Seg.frame h.chain (fun x _ => Store.node_append_none m x.addr) (fun _ _ => rfl),
    h.nodup, h.vnodup, h.size⟩

theorem listNodeCreate_outcome (m : Store) (value : Bytes) (size : Int)
    (nodeOk valueOk : Bool) :
    listNodeCreate m value size nodeOk valueOk = some (m, none) ∨
    listNodeCreate m value size nodeOk valueOk =
      some ({ m with nodes := m.nodes ++ [none] }, none) ∨
    (listNodeCreate m value size nodeOk valueOk = none ∧
      ¬ (0 ≤ size ∧ size ≤ value.length)) ∨
    (nodeOk = true ∧ valueOk = true ∧ 0 ≤ size ∧ size ≤ value.length) := by
  cases nodeOk with
  | false => exact Or.inl (by simp [listNodeCreate])
  | true =>
    cases valueOk with
    | false => exact Or.inr (Or.inl (by simp [listNodeCreate]))
    | true =>
      by_cases hs : 0 ≤ size ∧ size ≤ value.length
      · exact Or.inr (Or.inr (Or.inr ⟨rfl, rfl, hs⟩))
      · refine Or.inr (Or.inr (Or.inl ⟨?_, hs⟩))
        have : size < 0 ∨ (value.length : Int) < size := by omega
        simp [listNodeCreate, this]

theorem insertFront_outcome {m : Store} {l : LinkedList} {g : List Cell}
    (h : WellFormed m l g) (value : Bytes) (size : Int) (nodeOk valueOk : Bool) :
    (∃ r m1 l1 g1, linkedListInsertFront m (some l) value size nodeOk valueOk =
        some ⟨r, m1, some l1⟩ ∧ WellFormed m1 l1 g1) ∨
    (linkedListInsertFront m (some l) value size nodeOk valueOk = none ∧
      ¬ (0 ≤ size ∧ size ≤ value.length)) := by
  rcases listNodeCreate_outcome m value size nodeOk valueOk with hc | hc | ⟨hc, hs⟩ |
    ⟨rfl, rfl, hs0, hs1⟩
  · exact Or.inl ⟨-1, m, l, g, by simp [linkedListInsertFront, hc], h⟩
  · exact Or.inl ⟨-1, _, l, g, by simp [linkedListInsertFront, hc], h.append_none⟩
  · exact Or.inr ⟨by simp [linkedListInsertFront, hc], hs⟩
  · obtain ⟨m1, l1, hrun, hwf, _⟩ := insertFront_spec h value size hs0 hs1
    exact Or.inl ⟨0, m1, l1, _, hrun, hwf⟩

theorem insertBack_outcome {m : Store} {l : LinkedList} {g : List Cell}
    (h : WellFormed m l g) (value : Bytes) (size : Int) (nodeOk valueOk : Bool) :
    (∃ r m1 l1 g1, linkedListInsertBack m (some l) value size nodeOk valueOk =
        some ⟨r, m1, some l1⟩ ∧ WellFormed m1 l1 g1) ∨
    (linkedListInsertBack m (some l) value size nodeOk valueOk = none ∧
      ¬ (0 ≤ size ∧ size ≤ value.length)) := by
  rcases listNodeCreate_outcome m value size nodeOk valueOk with hc | hc | ⟨hc, hs⟩ |
    ⟨rfl, rfl, hs0, hs1⟩
  · exact Or.inl ⟨-1, m, l, g, by simp [linkedListInsertBack, hc], h⟩
  · exact Or.inl ⟨-1, _, l, g, by simp [linkedListInsertBack, hc], h.append_none⟩
  · exact Or.inr ⟨by simp [linkedListInsertBack, hc], hs⟩
  · obtain ⟨m1, l1, hrun, hwf, _⟩ := insertBack_spec h value size hs0 hs1
    exact Or.inl ⟨0, m1, l1, _, hrun, hwf⟩

theorem removeValue_outcome {m : Store} {l : LinkedList} {g : List Cell}
    (h : WellFormed m l g) (value : Bytes) :
    ∃ r m1 l1 g1, linkedListRemoveValue m (some l) value = some ⟨r, m1, some l1⟩ ∧
      WellFormed m1 l1 g1 := by
  by_cases hex : ∃ x ∈ g, l.compare x.bytes value = 0
  · obtain ⟨x, hx, hpx⟩ := hex
    obtain ⟨c, pre, post, hpre, hc, hg, _⟩ :=
      List.exists_of_eraseP (p := fun c => decide (l.compare c.bytes value = 0)) hx
        (by simpa using hpx)
    subst hg
    obtain ⟨m1, l1, hrun, hwf, _⟩ :=
      removeValue_found h value (by simpa using hpre) (by simpa using hc)
    exact ⟨0, m1, l1, _, hrun, hwf⟩
  · refine ⟨-1, m, l, g, removeValue_not_found h value ?_, h⟩
    intro x hx hpx
    exact hex ⟨x, hx, hpx⟩

theorem peek_defined {m : Store} {l : LinkedList} {g : List Cell} (h : WellFormed m l g) :
    (∃ p, linkedListPeekFront m (some l) = some p) ∧
    (∃ p, linkedListPeekBack m (some l) = some p) := by
  obtain ⟨_, _, hhead, htail⟩ := h.ends
  constructor
  · cases hh : l.head with
    | none => exact ⟨none, by simp [linkedListPeekFront, hh]⟩
    | some a =>
      have := hhead a hh
      cases hn : m.node a with
      | none => simp [hn] at this
      | some n => exact ⟨n.value, by simp [linkedListPeekFront, hh, hn]⟩
  · cases ht : l.tail with
    | none => exact ⟨none, by simp [linkedListPeekBack, ht]⟩
    | some a =>
      have := htail a ht
      cases hn : m.node a with
      | none => simp [hn] at this
      | some n => exact ⟨n.value, by simp [linkedListPeekBack, ht, hn]⟩

theorem NoPopOp.step (op : NoPopOp) {s : Store × LinkedList} {g : List Cell}
    (h : WellFormed s.1 s.2 g) :
    (∃ s1 g1, op.run s = some s1 ∧ WellFormed s1.1 s1.2 g1) ∨
    (op.run s = none ∧ ¬ op.sized) := by
  cases op with
  | insertFront v sz a b =>
    rcases insertFront_outcome h v sz a b with ⟨r, m1, l1, g1, hrun, hwf⟩ | ⟨hrun, hs⟩
    · exact Or.inl ⟨(m1, l1), g1, by simp [NoPopOp.run, hrun], hwf⟩
    · exact Or.inr ⟨by simp [NoPopOp.run, hrun], hs⟩
  | insertBack v sz a b =>
    rcases insertBack_outcome h v sz a b with ⟨r, m1, l1, g1, hrun, hwf⟩ | ⟨hrun, hs⟩
    · exact Or.inl ⟨(m1, l1), g1, by simp [NoPopOp.run, hrun], hwf⟩
    · exact Or.inr ⟨by simp [NoPopOp.run, hrun], hs⟩
  | search v =>
    exact Or.inl ⟨s, g, by simp [NoPopOp.run, h.search_eq v], h⟩
  | peekFront =>
    obtain ⟨p, hp⟩ := (peek_defined h).1
    exact Or.inl ⟨s, g, by simp [NoPopOp.run, hp], h⟩
  | peekBack =>
    obtain ⟨p, hp⟩ := (peek_defined h).2
    exact Or.inl ⟨s, g, by simp [NoPopOp.run, hp], h⟩
  | removeValue v =>
    obtain ⟨r, m1, l1, g1, hrun, hwf⟩ := removeValue_outcome h v
    exact Or.inl ⟨(m1, l1), g1, by simp [NoPopOp.run, hrun], hwf⟩

theorem runNoPopOps_wellFormed :
    ∀ (ops : List NoPopOp) (s : Store × LinkedList) (g : List Cell),
      WellFormed s.1 s.2 g →
      (∀ s1, runNoPopOps ops s = some s1 → ∃ g1, WellFormed s1.1 s1.2 g1) ∧
      ((∀ op ∈ ops, op.sized) → ∃ s1, runNoPopOps ops s = some s1)
  | [], s, g, h => ⟨fun s1 hs => by cases hs; exact ⟨g, h⟩, fun _ => ⟨s, rfl⟩⟩
  | op :: ops, s, g, h => by
    rcases op.step h with ⟨s1, g1, hrun, hwf⟩ | ⟨hrun, hns⟩
    · obtain ⟨ih1, ih2⟩ := runNoPopOps_wellFormed ops s1 g1 hwf
      constructor
      · intro s2 hs2
        simp only [runNoPopOps, hrun, Option.some_bind] at hs2
        exact ih1 s2 hs2
      · intro hsz
        obtain ⟨s2, hs2⟩ := ih2 (fun o ho => hsz o (List.mem_cons_of_mem _ ho))
        exact ⟨s2, by simp only [runNoPopOps, hrun, Option.some_bind]; exact hs2⟩
    · constructor
      · intro s2 hs2
        simp [runNoPopOps, hrun] at hs2
      · intro hsz
        exact absurd (hsz op (List.mem_cons_self _ _)) hns

/-- C24: start from the list `linkedListCreate` returns and apply any sequence
of `linkedListInsertFront`, `linkedListInsertBack`, `linkedListSearch`,
`linkedListPeekFront`, `linkedListPeekBack` and `linkedListRemoveValue` calls,
with any allocation outcomes.  If the insertions copy no more bytes than their
values have, every call returns.  Every state reached is well formed:
`head == NULL` iff `size == 0` iff `tail == NULL`, `head->prev` and
`tail->next` are `NULL`, each node's neighbours point back to it, the walk
from `head` along `next` visits exactly `size` live nodes, and the walk from
`tail` along `prev` visits the same nodes in the reverse order. -/
theorem no_pop_states_well_formed (compare : Bytes → Bytes → Int) (m0 : Store)
    (ops : List NoPopOp) :
    linkedListCreate (some compare) true = some ⟨compare, none, none, 0⟩ ∧
    ((∀ op ∈ ops, op.sized) → ∃ s, runNoPopOps ops (m0, ⟨compare, none, none, 0⟩) = some s) ∧
    (∀ s, runNoPopOps ops (m0, ⟨compare, none, none, 0⟩) = some s →
      ∃ g, WellFormed s.1 s.2 g ∧
        (s.2.head = none ↔ s.2.size = 0) ∧ (s.2.size = 0 ↔ s.2.tail = none) ∧
        (∀ a, s.2.head = some a → (s.1.node a).map (fun k => k.prev) = some none) ∧
        (∀ t, s.2.tail = some t → (s.1.node t).map (fun k => k.next) = some none) ∧
        (∀ x ∈ g, ∃ n, s.1.node x.addr = some n ∧
          (∀ p, n.prev = some p →
            (s.1.node p).map (fun k => k.next) = some (some x.addr)) ∧
          (∀ q, n.next = some q →
            (s.1.node q).map (fun k => k.prev) = some (some x.addr))) ∧
        reachableNodes s.1 s.2 = some (g.map Cell.addr) ∧
        s.2.size = (g.map Cell.addr).length ∧
        reachableNodesBackward s.1 s.2 = some (g.map Cell.addr).reverse) := by
  have h0 : WellFormed m0 (⟨compare, none, none, 0⟩ : LinkedList) [] :=
    ⟨⟨rfl, rfl⟩, by simp, by simp, rfl⟩
  obtain ⟨hinv, htotal⟩ := runNoPopOps_wellFormed ops (m0, ⟨compare, none, none, 0⟩) [] h0
  refine ⟨rfl, htotal, ?_⟩
  intro s hs
  obtain ⟨g, hwf⟩ := hinv s hs
  obtain ⟨e1, e2, e3, e4⟩ := hwf.ends
  exact ⟨g, hwf, e1, e2, e3, e4, Seg.links hwf.chain, hwf.reachableNodes_eq,
    by simp [hwf.size], hwf.reachableNodesBackward_eq⟩

theorem no_pop_states_well_formed_witness :
    (∀ op ∈ [NoPopOp.insertBack (intBytes 10) 4 true true,
        NoPopOp.insertBack (intBytes 20) 4 true true,
        NoPopOp.insertFront (intBytes 5) 4 true true, NoPopOp.search (intBytes 20),
        NoPopOp.removeValue (intBytes 10)], op.sized) ∧
    runNoPopOps [NoPopOp.insertBack (intBytes 10) 4 true true,
        NoPopOp.insertBack (intBytes 20) 4 true true,
        NoPopOp.insertFront (intBytes 5) 4 true true, NoPopOp.search (intBytes 20),
        NoPopOp.removeValue (intBytes 10)] freshList =
      some (⟨[none, some ⟨none, some 2, some 1⟩, some ⟨some 1, none, some 2⟩],
        [none, some (intBytes 20), some (intBytes 5)]⟩, ⟨bytesCompare, some 2, some 1, 2⟩) ∧
    ∃ g, WellFormed
        (⟨[none, some ⟨none, some 2, some 1⟩, some ⟨some 1, none, some 2⟩],
          [none, some (intBytes 20), some (intBytes 5)]⟩ : Store)
        ⟨bytesCompare, some 2, some 1, 2⟩ g ∧
      reachableNodesBackward
        (⟨[none, some ⟨none, some 2, some 1⟩, some ⟨some 1, none, some 2⟩],
          [none, some (intBytes 20), some (intBytes 5)]⟩ : Store)
        ⟨bytesCompare, some 2, some 1, 2⟩ = some (g.map Cell.addr).reverse := by
  have hsz : ∀ op ∈ [NoPopOp.insertBack (intBytes 10) 4 true true,
      NoPopOp.insertBack (intBytes 20) 4 true true,
      NoPopOp.insertFront (intBytes 5) 4 true true, NoPopOp.search (intBytes 20),
      NoPopOp.removeValue (intBytes 10)], op.sized := by
    intro op hop
    simp only [List.mem_cons, List.mem_singleton, List.not_mem_nil, or_false] at hop
    rcases hop with rfl | rfl | rfl | rfl | rfl <;> simp [NoPopOp.sized, intBytes]
  obtain ⟨g, hwf, _, _, _, _, _, _, _, hback⟩ :=
    (no_pop_states_well_formed bytesCompare ⟨[], []⟩ _).2.2 _
      (show runNoPopOps [NoPopOp.insertBack (intBytes 10) 4 true true,
        NoPopOp.insertBack (intBytes 20) 4 true true,
        NoPopOp.insertFront (intBytes 5) 4 true true, NoPopOp.search (intBytes 20),
        NoPopOp.removeValue (intBytes 10)] freshList = some _ from rfl)
  exact ⟨hsz, rfl, g, hwf, hback⟩
